import Mathlib

/-!
# nd_lookup_table: AVL tree and 1-D / N-D lookup table

A shallow embedding of `include/nd_lookup_table/avl_tree.hpp` and
`include/nd_lookup_table/lookup_table.hpp`.

Modelling conventions.

* A `NodeT*` (an owning, nullable pointer to a `BinaryTreeNode<DataT>`) is a value of the
  inductive type `BinaryTreeNode α`; `nil` is `nullptr`.  Trees never share nodes, so in-place
  mutation through `setLeft` / `setRight` is modelled by returning the updated node.
* Dereferencing `nullptr` is a failure: every accessor that the source applies through `->`
  returns an `Option`, and `none` propagates.
* `height_` is an `unsigned int`.  It is modelled as a `Nat` and `getBalance` as the integer
  difference of two heights.  The two agree as long as heights stay below `2^31`; a tree of
  height `2^31` has a path of `2^31` nodes, and an AVL tree of that height has more nodes than
  any memory holds.
* The comparator returns an integer that the source only tests with `< 0` and `> 0`.
* A `const DataT*` returned by `lookup` is modelled by the optional pointed-to value.
-/

namespace LUT

/-! ## avl_tree.hpp : BinaryTreeNode -/

/-- A nullable pointer to a tree node: `nil` is `nullptr`, `node height_ left_ right_ data`
is a node with its cached height, its two children and its data item. -/
inductive BinaryTreeNode (α : Type) where
  | nil : BinaryTreeNode α
  | node (height_ : Nat) (left_ : BinaryTreeNode α) (right_ : BinaryTreeNode α) (data : α) :
      BinaryTreeNode α
  deriving DecidableEq, Repr

namespace BinaryTreeNode

variable {α : Type}

/-- The constructor `BinaryTreeNode(const DataT& data)`: height 1, no children. -/
def new (data : α) : BinaryTreeNode α := node 1 nil nil data

/-- The static `getHeight(BinaryTreeNode* node)`: the cached height, 0 for `nullptr`. -/
def getHeight : BinaryTreeNode α → Nat
  | nil => 0
  | node h _ _ _ => h

/-- The static `getBalance(BinaryTreeNode* node)`: cached height of the left child minus
cached height of the right child, 0 for `nullptr`. -/
def getBalance : BinaryTreeNode α → Int
  | nil => 0
  | node _ l r _ => (getHeight l : Int) - (getHeight r : Int)

/-- The member `node->getLeft()`; fails on `nullptr`. -/
def getLeft : BinaryTreeNode α → Option (BinaryTreeNode α)
  | nil => none
  | node _ l _ _ => some l

/-- The member `node->getRight()`; fails on `nullptr`. -/
def getRight : BinaryTreeNode α → Option (BinaryTreeNode α)
  | nil => none
  | node _ _ r _ => some r

/-- The member access `node->data`; fails on `nullptr`. -/
def getData : BinaryTreeNode α → Option α
  | nil => none
  | node _ _ _ d => some d

/-- The member `node->setLeft(c)`: replaces the left child and recomputes the cached height;
fails on `nullptr`. -/
def setLeft : BinaryTreeNode α → BinaryTreeNode α → Option (BinaryTreeNode α)
  | nil, _ => none
  | node _ _ r d, c => some (node (1 + max (getHeight c) (getHeight r)) c r d)

/-- The member `node->setRight(c)`: replaces the right child and recomputes the cached height;
fails on `nullptr`. -/
def setRight : BinaryTreeNode α → BinaryTreeNode α → Option (BinaryTreeNode α)
  | nil, _ => none
  | node _ l _ d, c => some (node (1 + max (getHeight l) (getHeight c)) l c d)

/-- The test `node == nullptr` (written `!node` in the source). -/
def isNull : BinaryTreeNode α → Bool
  | nil => true
  | node _ _ _ _ => false

/-- The assignment `node->data = d`; fails on `nullptr`. -/
def setData : BinaryTreeNode α → α → Option (BinaryTreeNode α)
  | nil, _ => none
  | node h l r _, d => some (node h l r d)

end BinaryTreeNode

/-! ## avl_tree.hpp : AVL_Tree -/

namespace AVL_Tree

open BinaryTreeNode

variable {α : Type}

/-- The static `rightRotate(NodeT* y)`. -/
def rightRotate (y : BinaryTreeNode α) : Option (BinaryTreeNode α) := do
  let x ← getLeft y
  let subtree ← getRight x
  let y1 ← setLeft y subtree
  setRight x y1

/-- The static `leftRotate(NodeT* x)`. -/
def leftRotate (x : BinaryTreeNode α) : Option (BinaryTreeNode α) := do
  let y ← getRight x
  let subtree ← getLeft y
  let x1 ← setRight x subtree
  setLeft y x1

/-- The tail of the static `insert`, from `int balance = NodeT::getBalance(node);` on:
the rotation is chosen by comparing the inserted item with the child's data. -/
def insertRebalance (comp : α → α → Int) (node : BinaryTreeNode α) (data : α) :
    Option (BinaryTreeNode α) :=
  let balance := getBalance node
  if balance > 1 then do
    let l ← getLeft node
    let ld ← getData l
    if comp data ld > 0 then do
      let l1 ← leftRotate l
      let node1 ← setLeft node l1
      rightRotate node1
    else
      rightRotate node
  else if balance < -1 then do
    let r ← getRight node
    let rd ← getData r
    if comp data rd < 0 then do
      let r1 ← rightRotate r
      let node1 ← setRight node r1
      leftRotate node1
    else
      leftRotate node
  else
    some node

/-- The static `insert(NodeT* node, const DataT& data, CompareFunc& comp)`. -/
def insert (comp : α → α → Int) : BinaryTreeNode α → α → Option (BinaryTreeNode α)
  | nil, data => some (new data)
  | node h l r d, data =>
    let comp_this := comp data d
    if comp_this < 0 then do
      let l1 ← insert comp l data
      let node1 ← setLeft (node h l r d) l1
      insertRebalance comp node1 data
    else if comp_this > 0 then do
      let r1 ← insert comp r data
      let node1 ← setRight (node h l r d) r1
      insertRebalance comp node1 data
    else
      some (node h l r d)

/-- The tail of the static `remove`, from `int balance = NodeT::getBalance(node);` on:
the rotation is chosen by the child's balance factor. -/
def removeRebalance (node : BinaryTreeNode α) : Option (BinaryTreeNode α) :=
  let balance := getBalance node
  if balance > 1 then do
    let l ← getLeft node
    if getBalance l < 0 then do
      let l1 ← leftRotate l
      let node1 ← setLeft node l1
      rightRotate node1
    else
      rightRotate node
  else if balance < -1 then do
    let r ← getRight node
    if getBalance r > 0 then do
      let r1 ← rightRotate r
      let node1 ← setRight node r1
      leftRotate node1
    else
      leftRotate node
  else
    some node

/-- The loop `while (NodeT* temp = successor->getLeft()) successor = temp;` of `remove`,
returning `successor->data` of the node it stops at; fails on `nullptr`. -/
def successorData : BinaryTreeNode α → Option α
  | nil => none
  | node _ l _ d => if isNull l then some d else successorData l

/-- The static `remove(NodeT* node, const DataT& data, CompareFunc& comp)`. -/
def remove (comp : α → α → Int) : BinaryTreeNode α → α → Option (BinaryTreeNode α)
  | nil, _ => some nil
  | node h l r d, data =>
    let comp_this := comp data d
    if comp_this < 0 then do
      let l1 ← remove comp l data
      let node1 ← setLeft (node h l r d) l1
      removeRebalance node1
    else if comp_this > 0 then do
      let r1 ← remove comp r data
      let node1 ← setRight (node h l r d) r1
      removeRebalance node1
    else
      if isNull l then
        if isNull r then
          some nil
        else
          some r
      else if isNull r then
        some l
      else do
        let s ← successorData r
        let node1 ← setData (node h l r d) s
        let r1 ← remove comp r s
        let node2 ← setRight node1 r1
        removeRebalance node2

/-- The loop of the member `lookup`, with the running pointers `lower` and `upper`. -/
def lookupLoop (comp : α → α → Int) (input : α) :
    BinaryTreeNode α → Option α → Option α → Option α × Option α
  | nil, lower, upper => (lower, upper)
  | node _ l r d, lower, upper =>
    if comp input d < 0 then lookupLoop comp input l lower (some d)
    else if comp input d > 0 then lookupLoop comp input r (some d) upper
    else (some d, some d)

/-- The member `lookup(const DataT& input)` on a tree whose root is `root_`. -/
def lookup (comp : α → α → Int) (root_ : BinaryTreeNode α) (input : α) :
    Option α × Option α :=
  lookupLoop comp input root_ none none

end AVL_Tree

/-! ## lookup_table.hpp

Further modelling conventions.

* `KeyT` is a type with the comparisons `==` and `>` (a linear order), a subtraction and a
  division; `ValueT` is the type in which the interpolation is computed.  The local
  `double t = (key difference) / (key difference)` is the `KeyT` quotient converted by
  `toDouble`; with exact arithmetic on both sides `toDouble` is the identity.
* Value-initialisation `T{}` of an arithmetic type is `0`.
* A `SubLUT_PtrT` is a nullable pointer to a sub-table: `Option` of the sub-table's root.
* A point `std::array<KeyT, dim>` is a function on `Fin dim`, a `std::vector` is a `List`.
* In the primary template the argument of the sub-table call
  `p->lookup({inp.cbegin() + 1, inp.cend()})` is a braced pair of iterators.  It cannot
  initialise the parameter of the scalar overload (`const KeyT&`, or
  `const std::array<KeyT, dim - 1>&`), so overload resolution selects the batch overload,
  whose `std::vector` parameter is built by the iterator-range constructor from the remaining
  coordinates `inp[1], ..., inp[dim - 1]`; the call returns a `std::vector<ValueT>`.  Its use
  as a `ValueT` needs a conversion `vecToValue`, and for `dim >= 3` building the vector of
  points needs a conversion `keyToPoint` of one key to a `std::array<KeyT, dim - 1>`.
  Arithmetic types have neither conversion (nor `ptrToValue` below); they are parameters.
* With `KeyT = int` the keys are 32-bit two's complement integers (`CInt`): subtraction wraps
  modulo `2^32`, as the compiled code does on overflow, and division truncates towards zero.
-/

/-- The value of a mathematical integer as an `int`: its representative in
`[-2^31, 2^31)` modulo `2^32`. -/
def wrapInt (z : Int) : Int := (z + 2147483648) % 4294967296 - 2147483648

/-- The C++ type `int`: a 32-bit two's complement integer. -/
def CInt : Type := { z : Int // -2147483648 ≤ z ∧ z < 2147483648 }

namespace CInt

/-- The mathematical value of an `int`. -/
def val (a : CInt) : Int := Subtype.val a

/-- The `int` a mathematical integer wraps to. -/
def ofInt (z : Int) : CInt := ⟨wrapInt z, by unfold wrapInt; omega⟩

instance : LinearOrder CInt :=
  inferInstanceAs (LinearOrder { z : Int // -2147483648 ≤ z ∧ z < 2147483648 })

/-- Value-initialisation `int{}`. -/
instance : Zero CInt := ⟨ofInt 0⟩

/-- The operator `-` on `int`, wrapping on overflow. -/
instance : Sub CInt := ⟨fun a b => ofInt (val a - val b)⟩

/-- The operator `/` on `int`: the quotient truncated towards zero. -/
instance : Div CInt := ⟨fun a b => ofInt (Int.tdiv (val a) (val b))⟩

/-- The conversion of an `int` to `double` (exact). -/
def toDouble {V : Type} [IntCast V] (a : CInt) : V := ((val a : Int) : V)

end CInt

/-- The function `compareKeys(lhs, rhs)`: a three-way comparison of the `first` components. -/
def compareKeys {K P : Type} [LinearOrder K] (lhs rhs : K × P) : Int :=
  if lhs.1 = rhs.1 then 0 else if lhs.1 > rhs.1 then 1 else -1

/-! ### The specialisation `LookupTable<KeyT, ValueT, 1UL>`

The table is given by the root of its tree. -/

namespace LookupTable1

variable {K V : Type} [LinearOrder K]

/-- The member `insert(const KeyT& key, const ValueT& val)`. -/
def insert (root_ : BinaryTreeNode (K × V)) (key : K) (val : V) :
    Option (BinaryTreeNode (K × V)) :=
  AVL_Tree.insert compareKeys root_ (key, val)

/-- The member `remove(const KeyT& key, const ValueT& val)`. -/
def remove (root_ : BinaryTreeNode (K × V)) (key : K) (val : V) :
    Option (BinaryTreeNode (K × V)) :=
  AVL_Tree.remove compareKeys root_ (key, val)

/-- The constructor `LookupTable()`: the tree with `root_{nullptr}`. -/
def new : BinaryTreeNode (K × V) := .nil

variable [Sub K] [Div K] [Zero K] [Zero V] [Add V] [Sub V] [Mul V]

/-- The member `interp_impl(lower, upper, inp)`. -/
def interp_impl (toDouble : K → V) (lower upper inp : K × V) : K × V :=
  let ret := inp
  if ret.1 = lower.1 then
    (ret.1, lower.2)
  else if ret.1 = upper.1 then
    (ret.1, upper.2)
  else
    let t := toDouble ((ret.1 - lower.1) / (upper.1 - lower.1))
    (ret.1, lower.2 + t * (upper.2 - lower.2))

/-- The member `interp(ref, input)`. -/
def interp (toDouble : K → V) (ref : Option (K × V) × Option (K × V)) (input : K × V) :
    K × V :=
  match ref.1 with
  | none =>
    match ref.2 with
    | none => (0, 0)
    | some upper => upper
  | some lower =>
    match ref.2 with
    | none => lower
    | some upper => interp_impl toDouble lower upper input

/-- The member `lookup(const KeyT& input)`. -/
def lookup (toDouble : K → V) (root_ : BinaryTreeNode (K × V)) (input : K) : V :=
  let lookup_inp : K × V := (input, 0)
  let closest_pair := AVL_Tree.lookup compareKeys root_ lookup_inp
  (interp toDouble closest_pair lookup_inp).2

/-- The member `lookup(const std::vector<KeyT>& input)`: the scalar `lookup` of each element,
in order. -/
def lookupVector (toDouble : K → V) (root_ : BinaryTreeNode (K × V)) (input : List K) :
    List V :=
  input.map fun i => lookup toDouble root_ i

end LookupTable1

/-- The root of the tree of a table of dimension `d + 1`: in dimension 1 the elements are
`(key, value)`; in dimension `d + 2` they are `(key, pointer to a table of dimension d + 1)`. -/
def LookupTableRoot (K V : Type) : Nat → Type
  | 0 => BinaryTreeNode (K × V)
  | d + 1 => BinaryTreeNode (K × Option (LookupTableRoot K V d))

/-! ### The primary template `LookupTable<KeyT, ValueT, dim>`, `dim > 1` -/

namespace LookupTable

variable {K V P : Type} [LinearOrder K] [Sub K] [Div K] [Zero K] [Zero V] [Add V] [Sub V]
  [Mul V]

/-- The member `interp_impl(lower, upper, inp)`.  `inp0` is `inp[0]` and `subLookup p` is the
call `p->lookup({inp.cbegin() + 1, inp.cend()})` with its result converted to `ValueT`; it fails
on `nullptr`. -/
def interp_impl (toDouble : K → V) (subLookup : P → Option V) (lower upper : K × P) (inp0 : K) :
    Option (K × V) :=
  let ret : K × V := (inp0, 0)
  if ret.1 = lower.1 then do
    let v ← subLookup lower.2
    pure (ret.1, v)
  else if ret.1 = upper.1 then do
    let v ← subLookup upper.2
    pure (ret.1, v)
  else do
    let t := toDouble ((ret.1 - lower.1) / (upper.1 - lower.1))
    let lower_val ← subLookup lower.2
    let upper_val ← subLookup upper.2
    pure (ret.1, lower_val + t * (upper_val - lower_val))

/-- The member `interp(ref, input)`.  The assignments `ret = *(ref.second)` and
`ret = *(ref.first)` copy a `pair<KeyT, SubLUT_PtrT>` into a `pair<KeyT, ValueT>` member by
member; `ptrToValue` is the conversion of the pointer to `ValueT` this needs. -/
def interp (toDouble : K → V) (ptrToValue : P → V) (subLookup : P → Option V)
    (ref : Option (K × P) × Option (K × P)) (inp0 : K) : Option (K × V) :=
  match ref.1 with
  | none =>
    match ref.2 with
    | none => some (0, 0)
    | some upper => some (upper.1, ptrToValue upper.2)
  | some lower =>
    match ref.2 with
    | none => some (lower.1, ptrToValue lower.2)
    | some upper => interp_impl toDouble subLookup lower upper inp0

/-- The constructor `LookupTable()` of the table of dimension `d + 2`: the tree with
`root_{nullptr}`. -/
def new (K V : Type) (d : Nat) : LookupTableRoot K V (d + 1) :=
  (BinaryTreeNode.nil : BinaryTreeNode (K × Option (LookupTableRoot K V d)))

/-- The loop `for (const auto& i : input) ret.emplace_back(lookup(i));` of the batch overload,
for a `lookup` that can fail. -/
def lookupEach {A : Type} (lookup : A → Option V) : List A → Option (List V)
  | [] => some []
  | i :: input => do
    let v ← lookup i
    let ret ← lookupEach lookup input
    pure (v :: ret)

/-- The member `lookup(const std::array<KeyT, dim>& input)` of the table of dimension
`dim = d + 2`.  The sub-table call `p->lookup({inp.cbegin() + 1, inp.cend()})` is the batch
overload of the sub-table on the vector built from the remaining coordinates
`inp[1], ..., inp[dim - 1]`: for `dim = 2` the 1-D `lookup(const std::vector<KeyT>&)` on those
keys; for `dim >= 3` the `lookup(const std::vector<std::array<KeyT, dim - 1>>&)` on the points
`keyToPoint` makes of them.  The returned vector is converted by `vecToValue`. -/
def lookup (toDouble : K → V) (ptrToValue : (d : Nat) → Option (LookupTableRoot K V d) → V)
    (vecToValue : List V → V) (keyToPoint : (d : Nat) → K → (Fin (d + 2) → K)) :
    (d : Nat) → LookupTableRoot K V (d + 1) → (Fin (d + 2) → K) → Option V
  | 0, root_, input =>
    let subLookup : Option (LookupTableRoot K V 0) → Option V := fun p =>
      p.map fun sub =>
        vecToValue (LookupTable1.lookupVector toDouble sub (List.ofFn (Fin.tail input)))
    let closest_pair :=
      AVL_Tree.lookup (α := K × Option (LookupTableRoot K V 0)) compareKeys root_ (input 0, none)
    (interp toDouble (ptrToValue 0) subLookup closest_pair (input 0)).map Prod.snd
  | d + 1, root_, input =>
    let subLookup : Option (LookupTableRoot K V (d + 1)) → Option V := fun p =>
      p.bind fun sub =>
        (lookupEach
          (fun i => lookup toDouble ptrToValue vecToValue keyToPoint d sub i)
          ((List.ofFn (Fin.tail input)).map (keyToPoint d))).map vecToValue
    let closest_pair :=
      AVL_Tree.lookup (α := K × Option (LookupTableRoot K V (d + 1))) compareKeys root_
        (input 0, none)
    (interp toDouble (ptrToValue (d + 1)) subLookup closest_pair (input 0)).map Prod.snd

/-- The member `lookup(const std::vector<std::array<KeyT, dim>>& input)` of the table of
dimension `dim = d + 2`: the scalar `lookup` of each point, in order. -/
def lookupVector (toDouble : K → V)
    (ptrToValue : (d : Nat) → Option (LookupTableRoot K V d) → V)
    (vecToValue : List V → V) (keyToPoint : (d : Nat) → K → (Fin (d + 2) → K)) (d : Nat)
    (root_ : LookupTableRoot K V (d + 1)) (input : List (Fin (d + 2) → K)) : Option (List V) :=
  lookupEach (fun i => lookup toDouble ptrToValue vecToValue keyToPoint d root_ i) input

/-- The call `p->lookup({inp.cbegin() + 1, inp.cend()})` of `interp_impl`, through a pointer
`p` to a table of dimension `d + 1`, with its result converted to `ValueT`; `rest` holds the
remaining coordinates `inp[1], ..., inp[dim - 1]`.  Fails on `nullptr`. -/
def subLookup (toDouble : K → V) (ptrToValue : (d : Nat) → Option (LookupTableRoot K V d) → V)
    (vecToValue : List V → V) (keyToPoint : (d : Nat) → K → (Fin (d + 2) → K)) :
    (d : Nat) → Option (LookupTableRoot K V d) → List K → Option V
  | _, none, _ => none
  | 0, some sub, rest => some (vecToValue (LookupTable1.lookupVector toDouble sub rest))
  | d + 1, some sub, rest =>
    (lookupVector toDouble ptrToValue vecToValue keyToPoint d sub
      (rest.map (keyToPoint d))).map vecToValue

end LookupTable

/-! ## Specification vocabulary for trees -/

namespace BinaryTreeNode

variable {α : Type}

/-- The real height of a tree: the number of nodes on a longest root-to-leaf path. -/
def height : BinaryTreeNode α → Nat
  | nil => 0
  | node _ l r _ => 1 + max (height l) (height r)

/-- The in-order traversal: left subtree, node, right subtree. -/
def inorder : BinaryTreeNode α → List α
  | nil => []
  | node _ l r d => inorder l ++ d :: inorder r

/-- Every node's cached `height_` is `1 + max(height(left), height(right))`. -/
def HeightsOK : BinaryTreeNode α → Prop
  | nil => True
  | node h l r _ => h = 1 + max (height l) (height r) ∧ HeightsOK l ∧ HeightsOK r

/-- The AVL balance condition: at every node the heights of the two children differ by at
most one. -/
def IsBalanced : BinaryTreeNode α → Prop
  | nil => True
  | node _ l r _ =>
    (height l ≤ height r + 1 ∧ height r ≤ height l + 1) ∧ IsBalanced l ∧ IsBalanced r

/-- The in-order traversal is strictly increasing under the comparator. -/
def Ordered (comp : α → α → Int) (t : BinaryTreeNode α) : Prop :=
  (inorder t).Pairwise (fun a b => comp a b < 0)

instance decidableHeightsOK : (t : BinaryTreeNode α) → Decidable (HeightsOK t)
  | nil => isTrue trivial
  | node h l r _ =>
    have := decidableHeightsOK l
    have := decidableHeightsOK r
    inferInstanceAs (Decidable (h = 1 + max (height l) (height r) ∧ HeightsOK l ∧ HeightsOK r))

instance decidableBalanced : (t : BinaryTreeNode α) → Decidable (IsBalanced t)
  | nil => isTrue trivial
  | node _ l r _ =>
    have := decidableBalanced l
    have := decidableBalanced r
    inferInstanceAs (Decidable
      ((height l ≤ height r + 1 ∧ height r ≤ height l + 1) ∧ IsBalanced l ∧ IsBalanced r))

instance decidableOrdered (comp : α → α → Int) (t : BinaryTreeNode α) :
    Decidable (Ordered comp t) :=
  inferInstanceAs (Decidable ((inorder t).Pairwise (fun a b => comp a b < 0)))

end BinaryTreeNode

namespace AVL_Tree

open BinaryTreeNode

variable {α : Type}

/-- The laws of a three-way comparator that is a total preorder: swapping the arguments swaps
the sign, and "not greater" is transitive. -/
structure IsTotalCompare (comp : α → α → Int) : Prop where
  swap : ∀ a b, 0 < comp a b ↔ comp b a < 0
  le_trans : ∀ a b c, comp a b ≤ 0 → comp b c ≤ 0 → comp a c ≤ 0

/-- The list `xs` with `x` placed at its sorted position: before the first element that `x`
compares less than; `xs` itself when an element comparing equal to `x` is met first. -/
def insertSorted (comp : α → α → Int) (x : α) : List α → List α
  | [] => [x]
  | a :: as =>
    if comp x a < 0 then x :: a :: as
    else if 0 < comp x a then a :: insertSorted comp x as
    else a :: as

/-- A call of one of the two public mutators of `AVL_Tree`. -/
inductive Op (α : Type) where
  | insert (data : α) : Op α
  | remove (data : α) : Op α

/-- The public members `insert(data)` (`root_ = insert(root_, data, comp_)`) and
`remove(data)` (`root_ = remove(root_, data, comp_)`), applied to the root. -/
def applyOp (comp : α → α → Int) (root_ : BinaryTreeNode α) : Op α → Option (BinaryTreeNode α)
  | Op.insert data => AVL_Tree.insert comp root_ data
  | Op.remove data => AVL_Tree.remove comp root_ data

/-- A sequence of calls of the public mutators, run from the root `root_`. -/
def run (comp : α → α → Int) : BinaryTreeNode α → List (Op α) → Option (BinaryTreeNode α)
  | root_, [] => some root_
  | root_, op :: ops => (applyOp comp root_ op).bind fun t => run comp t ops

/-- The optional element `o` is the largest element of `xs` that is not greater than `q`
(`none`: no element of `xs` is not greater than `q`). -/
def IsLowerBracket (comp : α → α → Int) (xs : List α) (q : α) : Option α → Prop
  | none => ∀ a ∈ xs, ¬ comp a q ≤ 0
  | some e => e ∈ xs ∧ comp e q ≤ 0 ∧ ∀ a ∈ xs, comp a q ≤ 0 → comp a e ≤ 0

/-- The optional element `o` is the smallest element of `xs` that is not less than `q`
(`none`: no element of `xs` is not less than `q`). -/
def IsUpperBracket (comp : α → α → Int) (xs : List α) (q : α) : Option α → Prop
  | none => ∀ a ∈ xs, ¬ comp q a ≤ 0
  | some e => e ∈ xs ∧ comp q e ≤ 0 ∧ ∀ a ∈ xs, comp q a ≤ 0 → comp e a ≤ 0

/-- The shape of a subtree that has just grown by one level through the insertion of `x`:
a fresh leaf, or a node that is heavier on the side `x` went to. -/
def Grow (comp : α → α → Int) (x : α) : BinaryTreeNode α → Prop
  | nil => False
  | node _ l r d =>
    (l = nil ∧ r = nil) ∨ (comp x d < 0 ∧ height l = height r + 1) ∨
      (0 < comp x d ∧ height r = height l + 1)

/-- Every node of a tree, as the subtree rooted there. -/
def nodes : BinaryTreeNode α → List (BinaryTreeNode α)
  | nil => []
  | node h l r d => node h l r d :: (nodes l ++ nodes r)

/-- The static `insert` with its rotation test replaced by the test of `remove`: the tail of
the function is `removeRebalance`, which looks at the child's balance factor instead of
comparing the inserted item with the child's data.  This is not source code; it is the
variant that the comparison of the two rebalancing rules speaks about. -/
def insertByBalance (comp : α → α → Int) : BinaryTreeNode α → α → Option (BinaryTreeNode α)
  | nil, data => some (new data)
  | node h l r d, data =>
    let comp_this := comp data d
    if comp_this < 0 then do
      let l1 ← insertByBalance comp l data
      let node1 ← setLeft (node h l r d) l1
      removeRebalance node1
    else if comp_this > 0 then do
      let r1 ← insertByBalance comp r data
      let node1 ← setRight (node h l r d) r1
      removeRebalance node1
    else
      some (node h l r d)

end AVL_Tree

/-! ## Example trees -/

/-- The tree of the test after `insert(3, 10)`, `insert(2, 20)`, `insert(1, 30)`, with integer
keys and values: root 2, left child 1, right child 3. -/
def exTree : BinaryTreeNode (ℤ × ℤ) :=
  .node 2 (.node 1 .nil .nil (1, 30)) (.node 1 .nil .nil (3, 10)) (2, 20)

/-- A strictly ordered tree with correct cached heights that is not balanced: the left spine
10, 5, 3, 1. -/
def exChain : BinaryTreeNode (ℤ × ℤ) :=
  .node 4 (.node 3 (.node 2 (.node 1 .nil .nil (1, 0)) .nil (3, 0)) .nil (5, 0)) .nil (10, 0)

/-- The table of the test after `insert(3., 10.)`, `insert(2., 20.)`, `insert(1., 30.)`. -/
def testTable3 : Option (BinaryTreeNode (ℚ × ℚ)) := do
  let t ← LookupTable1.insert .nil 3 10
  let t ← LookupTable1.insert t 2 20
  LookupTable1.insert t 1 30

/-- The table of the test after the further `insert(4., 40.)`, `insert(3.5, 50.)` and
`insert(5., 60.)`. -/
def testTable6 : Option (BinaryTreeNode (ℚ × ℚ)) := do
  let t ← testTable3
  let t ← LookupTable1.insert t 4 40
  let t ← LookupTable1.insert t (7 / 2) 50
  LookupTable1.insert t 5 60

/-- A strictly ordered tree with correct cached heights that is not balanced: the right spine
1, 3, 5, 10. -/
def exSpine : BinaryTreeNode (ℤ × ℤ) :=
  .node 4 .nil (.node 3 .nil (.node 2 .nil (.node 1 .nil .nil (10, 0)) (5, 0)) (3, 0)) (1, 0)

/-- The table of the test after `insert(4., 40.)` and `insert(3.5, 50.)`, before
`insert(5., 60.)`. -/
def testTable5 : Option (BinaryTreeNode (ℚ × ℚ)) := do
  let t ← testTable3
  let t ← LookupTable1.insert t 4 40
  LookupTable1.insert t (7 / 2) 50

/-- The table of the test after `remove(5., 60.)`, `remove(3.5, 50.)` and `remove(4., 40.)`. -/
def testTableRemoved3 : Option (BinaryTreeNode (ℚ × ℚ)) := do
  let t ← testTable6
  let t ← LookupTable1.remove t 5 60
  let t ← LookupTable1.remove t (7 / 2) 50
  LookupTable1.remove t 4 40

/-- The table of the test after the final `remove(2., 20.)`. -/
def testTableRemoved4 : Option (BinaryTreeNode (ℚ × ℚ)) := do
  let t ← testTableRemoved3
  LookupTable1.remove t 2 20

/-- The tree `exTree` with rational keys and values. -/
def exTreeQ : BinaryTreeNode (ℚ × ℚ) :=
  .node 2 (.node 1 .nil .nil (1, 30)) (.node 1 .nil .nil (3, 10)) (2, 20)

/-- A table with the `int` keys 0, 10, 20 and rational values. -/
def exTreeCInt : BinaryTreeNode (CInt × ℚ) :=
  .node 2 (.node 1 .nil .nil (CInt.ofInt 0, 30)) (.node 1 .nil .nil (CInt.ofInt 20, 10))
    (CInt.ofInt 10, 20)

/-- A table with the two `int` keys -2000000000 and 2000000000, whose difference is not an
`int`, and rational values. -/
def exTreeCIntWide : BinaryTreeNode (CInt × ℚ) :=
  .node 2 .nil (.node 1 .nil .nil (CInt.ofInt 2000000000, 20)) (CInt.ofInt (-2000000000), 30)

/-- The 1-D table with the single entry `(0, 100)`. -/
def exSub100 : BinaryTreeNode (ℚ × ℚ) := .node 1 .nil .nil (0, 100)

/-- The 1-D table with the single entry `(0, 200)`. -/
def exSub200 : BinaryTreeNode (ℚ × ℚ) := .node 1 .nil .nil (0, 200)

/-- The tree of the test after `insert(3, 10)` and `insert(2, 20)`, with integer keys and
values: root 3 with left child 2. -/
def exTree2 : BinaryTreeNode (ℤ × ℤ) :=
  .node 2 (.node 1 .nil .nil (2, 20)) .nil (3, 10)

/-- A two-dimensional table over the rationals with the outer keys 0 and 10; the sub-table of
key 0 holds the single entry `(0, 100)`, the sub-table of key 10 the single entry `(0, 200)`. -/
def exTable2DQ : LookupTableRoot ℚ ℚ 1 :=
  (.node 2 .nil
    (.node 1 .nil .nil (10, some (.node 1 .nil .nil (0, 200) : BinaryTreeNode (ℚ × ℚ))))
    (0, some (.node 1 .nil .nil (0, 100) : BinaryTreeNode (ℚ × ℚ))) :
    BinaryTreeNode (ℚ × Option (LookupTableRoot ℚ ℚ 0)))

/-- A two-dimensional table with the single outer key 5, whose sub-table is `exTree`. -/
def exTable2D : LookupTableRoot ℤ ℤ 1 :=
  (.node 1 .nil .nil (5, some exTree) : BinaryTreeNode (ℤ × Option (LookupTableRoot ℤ ℤ 0)))

end LUT

namespace LUT

open BinaryTreeNode AVL_Tree

variable {α : Type}

/-! ## Heights and caches -/

theorem getHeight_eq_height {t : BinaryTreeNode α} (h : HeightsOK t) :
    getHeight t = height t := by
  cases t with
  | nil => rfl
  | node h l r d => exact h.1

@[simp] theorem getHeight_nil : getHeight (nil : BinaryTreeNode α) = 0 := rfl

@[simp] theorem getHeight_node (h : Nat) (l r : BinaryTreeNode α) (d : α) :
    getHeight (node h l r d) = h := rfl

@[simp] theorem getBalance_node (h : Nat) (l r : BinaryTreeNode α) (d : α) :
    getBalance (node h l r d) = (getHeight l : Int) - (getHeight r : Int) := rfl

@[simp] theorem getLeft_node (h : Nat) (l r : BinaryTreeNode α) (d : α) :
    getLeft (node h l r d) = some l := rfl

@[simp] theorem getRight_node (h : Nat) (l r : BinaryTreeNode α) (d : α) :
    getRight (node h l r d) = some r := rfl

@[simp] theorem getData_node (h : Nat) (l r : BinaryTreeNode α) (d : α) :
    getData (node h l r d) = some d := rfl

@[simp] theorem setLeft_node (h : Nat) (l r c : BinaryTreeNode α) (d : α) :
    setLeft (node h l r d) c = some (node (1 + max (getHeight c) (getHeight r)) c r d) := rfl

@[simp] theorem setRight_node (h : Nat) (l r c : BinaryTreeNode α) (d : α) :
    setRight (node h l r d) c = some (node (1 + max (getHeight l) (getHeight c)) l c d) := rfl

@[simp] theorem isNull_nil : isNull (nil : BinaryTreeNode α) = true := rfl

@[simp] theorem isNull_node (h : Nat) (l r : BinaryTreeNode α) (d : α) :
    isNull (node h l r d) = false := rfl

@[simp] theorem setData_node (h : Nat) (l r : BinaryTreeNode α) (d e : α) :
    setData (node h l r d) e = some (node h l r e) := rfl

theorem rightRotate_node (h hx : Nat) (a b r : BinaryTreeNode α) (d e : α) :
    rightRotate (node h (node hx a b e) r d) =
      some (node (1 + max (getHeight a) (1 + max (getHeight b) (getHeight r))) a
        (node (1 + max (getHeight b) (getHeight r)) b r d) e) := rfl

theorem leftRotate_node (h hy : Nat) (l a b : BinaryTreeNode α) (d e : α) :
    leftRotate (node h l (node hy a b e) d) =
      some (node (1 + max (1 + max (getHeight l) (getHeight a)) (getHeight b))
        (node (1 + max (getHeight l) (getHeight a)) l a d) b e) := rfl

theorem insertRebalance_noop (comp : α → α → Int) (n : BinaryTreeNode α) (x : α)
    (h1 : getBalance n ≤ 1) (h2 : -1 ≤ getBalance n) : insertRebalance comp n x = some n := by
  unfold insertRebalance
  simp only []
  rw [if_neg (by omega), if_neg (by omega)]

theorem removeRebalance_noop (n : BinaryTreeNode α)
    (h1 : getBalance n ≤ 1) (h2 : -1 ≤ getBalance n) : removeRebalance n = some n := by
  unfold removeRebalance
  simp only []
  rw [if_neg (by omega), if_neg (by omega)]

/-- Rebalancing after an insertion that made the left subtree two levels higher. -/
theorem insertRebalance_left (comp : α → α → Int) (x : α) (l r : BinaryTreeNode α) (d : α)
    (hl : HeightsOK l) (bl : IsBalanced l) (hr : HeightsOK r) (br : IsBalanced r)
    (hh : height l = height r + 2) (hg : Grow comp x l) :
    ∃ t, insertRebalance comp (node (1 + max (getHeight l) (getHeight r)) l r d) x = some t ∧
      HeightsOK t ∧ IsBalanced t ∧ height t = height r + 2 := by
  have er := getHeight_eq_height hr
  cases l with
  | nil => simp [height] at hh
  | node h a b e =>
    obtain ⟨he, ha, hb⟩ := hl
    obtain ⟨bab, ba, bb⟩ := bl
    subst he
    have ea := getHeight_eq_height ha
    have eb := getHeight_eq_height hb
    simp only [height] at hh
    rcases hg with ⟨rfl, rfl⟩ | ⟨hc, hab⟩ | ⟨hc, hab⟩
    · simp [height] at hh
    · have hc2 : ¬ (0 < comp x e) := by omega
      refine ⟨node (1 + max (height a) (1 + max (height b) (height r))) a
        (node (1 + max (height b) (height r)) b r d) e, ?_, ?_, ?_, ?_⟩
      · simp [insertRebalance, rightRotate_node, hc2, ea, eb, er]
        omega
      · simp [HeightsOK, height, ha, hb, hr]
      · simp [IsBalanced, height, ba, bb, br]
        omega
      · simp [height]
        omega
    · cases b with
      | nil => simp [height] at hab
      | node hb2 b1 b2 f =>
        obtain ⟨hf, hb1, hb2⟩ := hb
        obtain ⟨bb12, bb1, bb2⟩ := bb
        subst hf
        clear eb
        have eb1 := getHeight_eq_height hb1
        have eb2 := getHeight_eq_height hb2
        simp only [height] at hab hh bab
        refine ⟨node (1 + max (1 + max (height a) (height b1)) (1 + max (height b2) (height r)))
          (node (1 + max (height a) (height b1)) a b1 e)
          (node (1 + max (height b2) (height r)) b2 r d) f, ?_, ?_, ?_, ?_⟩
        · simp [insertRebalance, rightRotate_node, leftRotate_node, hc, ea, eb1, eb2, er, height]
          omega
        · simp [HeightsOK, height, ha, hb1, hb2, hr]
        · simp [IsBalanced, height, ba, bb1, bb2, br]
          omega
        · simp [height]
          omega

/-- Rebalancing after an insertion that made the right subtree two levels higher. -/
theorem insertRebalance_right (comp : α → α → Int) (x : α) (l r : BinaryTreeNode α) (d : α)
    (hl : HeightsOK l) (bl : IsBalanced l) (hr : HeightsOK r) (br : IsBalanced r)
    (hh : height r = height l + 2) (hg : Grow comp x r) :
    ∃ t, insertRebalance comp (node (1 + max (getHeight l) (getHeight r)) l r d) x = some t ∧
      HeightsOK t ∧ IsBalanced t ∧ height t = height l + 2 := by
  have el := getHeight_eq_height hl
  cases r with
  | nil => simp [height] at hh
  | node h a b e =>
    obtain ⟨he, ha, hb⟩ := hr
    obtain ⟨bab, ba, bb⟩ := br
    subst he
    have ea := getHeight_eq_height ha
    have eb := getHeight_eq_height hb
    simp only [height] at hh
    rcases hg with ⟨rfl, rfl⟩ | ⟨hc, hab⟩ | ⟨hc, hab⟩
    · simp [height] at hh
    · cases a with
      | nil => simp [height] at hab
      | node ha2 a1 a2 f =>
        obtain ⟨hf, ha1, ha2⟩ := ha
        obtain ⟨ba12, ba1, ba2⟩ := ba
        subst hf
        clear ea
        have ea1 := getHeight_eq_height ha1
        have ea2 := getHeight_eq_height ha2
        simp only [height] at hab hh bab
        refine ⟨node (1 + max (1 + max (height l) (height a1)) (1 + max (height a2) (height b)))
          (node (1 + max (height l) (height a1)) l a1 d)
          (node (1 + max (height a2) (height b)) a2 b e) f, ?_, ?_, ?_, ?_⟩
        · simp [insertRebalance, rightRotate_node, leftRotate_node, hc, ea1, ea2, eb, el, height]
          rw [if_neg (by omega), if_pos (by omega)]
        · simp [HeightsOK, height, ha1, ha2, hb, hl]
        · simp [IsBalanced, height, ba1, ba2, bb, bl]
          omega
        · simp [height]
          omega
    · have hc2 : ¬ (comp x e < 0) := by omega
      refine ⟨node (1 + max (1 + max (height l) (height a)) (height b))
        (node (1 + max (height l) (height a)) l a d) b e, ?_, ?_, ?_, ?_⟩
      · simp [insertRebalance, leftRotate_node, hc2, ea, eb, el]
        rw [if_neg (by omega), if_pos (by omega)]
      · simp [HeightsOK, height, ha, hb, hl]
      · simp [IsBalanced, height, ba, bb, bl]
        omega
      · simp [height]
        omega

/-- The AVL step of `insert`: on a tree with correct cached heights that is balanced, `insert`
returns a tree with correct cached heights that is balanced; the height is unchanged or grows
by one, and in the latter case the returned root leans towards the inserted item. -/
theorem insert_avl (comp : α → α → Int) (x : α) :
    ∀ t : BinaryTreeNode α, HeightsOK t → IsBalanced t →
      ∃ t1, insert comp t x = some t1 ∧ HeightsOK t1 ∧ IsBalanced t1 ∧
        (height t1 = height t ∨ (height t1 = height t + 1 ∧ Grow comp x t1)) := by
  intro t
  induction t with
  | nil =>
    intro _ _
    refine ⟨new x, rfl, ?_, ?_, Or.inr ⟨?_, ?_⟩⟩ <;> simp [BinaryTreeNode.new, HeightsOK, IsBalanced, height, Grow]
  | node h l r d ihl ihr =>
    intro hok bal
    obtain ⟨he, hl, hr⟩ := hok
    obtain ⟨blr, bl, br⟩ := bal
    have el := getHeight_eq_height hl
    have er := getHeight_eq_height hr
    by_cases c1 : comp x d < 0
    · obtain ⟨l1, e1, hl1, bl1, hgt⟩ := ihl hl bl
      have el1 := getHeight_eq_height hl1
      simp only [AVL_Tree.insert, c1, if_true, e1, Option.bind_eq_bind, Option.some_bind, setLeft_node]
      by_cases hb : height l1 = height r + 2
      · have hg : Grow comp x l1 := by
          rcases hgt with h0 | ⟨_, hg⟩
          · omega
          · exact hg
        obtain ⟨t1, ht1, hok1, bal1, hh1⟩ := insertRebalance_left comp x l1 r d hl1 bl1 hr br hb hg
        refine ⟨t1, ht1, hok1, bal1, Or.inl ?_⟩
        simp only [height]
        omega
      · rw [insertRebalance_noop comp _ x (by simp [el1, er]; omega) (by simp [el1, er]; omega)]
        refine ⟨_, rfl, ?_, ?_, ?_⟩
        · simp [HeightsOK, hl1, hr, el1, er]
        · simp only [IsBalanced]
          exact ⟨⟨by omega, by omega⟩, bl1, br⟩
        · simp only [height, Grow]
          rcases hgt with h0 | ⟨h1, _⟩
          · left; omega
          · by_cases hlr : height l < height r
            · left; omega
            · right
              refine ⟨by omega, Or.inr (Or.inl ⟨c1, by omega⟩)⟩
    · by_cases c2 : 0 < comp x d
      · obtain ⟨r1, e1, hr1, br1, hgt⟩ := ihr hr br
        have er1 := getHeight_eq_height hr1
        simp only [AVL_Tree.insert, c1, c2, if_true, if_false, gt_iff_lt, e1, Option.bind_eq_bind,
          Option.some_bind, setRight_node]
        by_cases hb : height r1 = height l + 2
        · have hg : Grow comp x r1 := by
            rcases hgt with h0 | ⟨_, hg⟩
            · omega
            · exact hg
          obtain ⟨t1, ht1, hok1, bal1, hh1⟩ :=
            insertRebalance_right comp x l r1 d hl bl hr1 br1 hb hg
          refine ⟨t1, ht1, hok1, bal1, Or.inl ?_⟩
          simp only [height]
          omega
        · rw [insertRebalance_noop comp _ x (by simp [er1, el]; omega) (by simp [er1, el]; omega)]
          refine ⟨_, rfl, ?_, ?_, ?_⟩
          · simp [HeightsOK, hr1, hl, er1, el]
          · simp only [IsBalanced]
            exact ⟨⟨by omega, by omega⟩, bl, br1⟩
          · simp only [height, Grow]
            rcases hgt with h0 | ⟨h1, _⟩
            · left; omega
            · by_cases hlr : height r < height l
              · left; omega
              · right
                refine ⟨by omega, Or.inr (Or.inr ⟨c2, by omega⟩)⟩
      · refine ⟨node h l r d, ?_, ⟨he, hl, hr⟩, ⟨blr, bl, br⟩, Or.inl rfl⟩
        simp only [AVL_Tree.insert, c1, c2, if_false, gt_iff_lt]

/-- Rebalancing after a removal that left the left subtree two levels higher. -/
theorem removeRebalance_left (l r : BinaryTreeNode α) (d : α)
    (hl : HeightsOK l) (bl : IsBalanced l) (hr : HeightsOK r) (br : IsBalanced r)
    (hh : height l = height r + 2) :
    ∃ t, removeRebalance (node (1 + max (getHeight l) (getHeight r)) l r d) = some t ∧
      HeightsOK t ∧ IsBalanced t ∧ (height t = height r + 2 ∨ height t = height r + 3) := by
  have er := getHeight_eq_height hr
  cases l with
  | nil => simp [height] at hh
  | node h a b e =>
    obtain ⟨he, ha, hb⟩ := hl
    obtain ⟨bab, ba, bb⟩ := bl
    subst he
    have ea := getHeight_eq_height ha
    have eb := getHeight_eq_height hb
    simp only [height] at hh
    by_cases hab : height a < height b
    · cases b with
      | nil => simp [height] at hab
      | node hb2 b1 b2 f =>
        obtain ⟨hf, hb1, hb2⟩ := hb
        obtain ⟨bb12, bb1, bb2⟩ := bb
        subst hf
        clear eb
        have eb1 := getHeight_eq_height hb1
        have eb2 := getHeight_eq_height hb2
        simp only [height] at hab hh bab
        refine ⟨node (1 + max (1 + max (height a) (height b1)) (1 + max (height b2) (height r)))
          (node (1 + max (height a) (height b1)) a b1 e)
          (node (1 + max (height b2) (height r)) b2 r d) f, ?_, ?_, ?_, ?_⟩
        · simp [removeRebalance, rightRotate_node, leftRotate_node, ea, eb1, eb2, er, height]
          rw [if_pos (by omega), if_pos (by omega)]
        · simp [HeightsOK, height, ha, hb1, hb2, hr]
        · simp [IsBalanced, height, ba, bb1, bb2, br]
          omega
        · simp [height]
          omega
    · refine ⟨node (1 + max (height a) (1 + max (height b) (height r))) a
        (node (1 + max (height b) (height r)) b r d) e, ?_, ?_, ?_, ?_⟩
      · simp [removeRebalance, rightRotate_node, ea, eb, er]
        rw [if_pos (by omega), if_neg (by omega)]
      · simp [HeightsOK, height, ha, hb, hr]
      · simp [IsBalanced, height, ba, bb, br]
        omega
      · simp [height]
        omega

/-- Rebalancing after a removal that left the right subtree two levels higher. -/
theorem removeRebalance_right (l r : BinaryTreeNode α) (d : α)
    (hl : HeightsOK l) (bl : IsBalanced l) (hr : HeightsOK r) (br : IsBalanced r)
    (hh : height r = height l + 2) :
    ∃ t, removeRebalance (node (1 + max (getHeight l) (getHeight r)) l r d) = some t ∧
      HeightsOK t ∧ IsBalanced t ∧ (height t = height l + 2 ∨ height t = height l + 3) := by
  have el := getHeight_eq_height hl
  cases r with
  | nil => simp [height] at hh
  | node h a b e =>
    obtain ⟨he, ha, hb⟩ := hr
    obtain ⟨bab, ba, bb⟩ := br
    subst he
    have ea := getHeight_eq_height ha
    have eb := getHeight_eq_height hb
    simp only [height] at hh
    by_cases hab : height b < height a
    · cases a with
      | nil => simp [height] at hab
      | node ha2 a1 a2 f =>
        obtain ⟨hf, ha1, ha2⟩ := ha
        obtain ⟨ba12, ba1, ba2⟩ := ba
        subst hf
        clear ea
        have ea1 := getHeight_eq_height ha1
        have ea2 := getHeight_eq_height ha2
        simp only [height] at hab hh bab
        refine ⟨node (1 + max (1 + max (height l) (height a1)) (1 + max (height a2) (height b)))
          (node (1 + max (height l) (height a1)) l a1 d)
          (node (1 + max (height a2) (height b)) a2 b e) f, ?_, ?_, ?_, ?_⟩
        · simp [removeRebalance, rightRotate_node, leftRotate_node, ea1, ea2, eb, el, height]
          rw [if_neg (by omega), if_pos (by omega), if_pos (by omega)]
        · simp [HeightsOK, height, ha1, ha2, hb, hl]
        · simp [IsBalanced, height, ba1, ba2, bb, bl]
          omega
        · simp [height]
          omega
    · refine ⟨node (1 + max (1 + max (height l) (height a)) (height b))
        (node (1 + max (height l) (height a)) l a d) b e, ?_, ?_, ?_, ?_⟩
      · simp [removeRebalance, leftRotate_node, ea, eb, el]
        rw [if_neg (by omega), if_pos (by omega), if_neg (by omega)]
      · simp [HeightsOK, height, ha, hb, hl]
      · simp [IsBalanced, height, ba, bb, bl]
        omega
      · simp [height]
        omega

/-- The rebalancing step of `remove` at a node whose two subtrees are AVL trees whose heights
differ by at most two. -/
theorem removeRebalance_avl (l r : BinaryTreeNode α) (d : α)
    (hl : HeightsOK l) (bl : IsBalanced l) (hr : HeightsOK r) (br : IsBalanced r)
    (h1 : height l ≤ height r + 2) (h2 : height r ≤ height l + 2) :
    ∃ t, removeRebalance (node (1 + max (getHeight l) (getHeight r)) l r d) = some t ∧
      HeightsOK t ∧ IsBalanced t ∧
      (height t = 1 + max (height l) (height r) ∨
        (height t + 1 = 1 + max (height l) (height r) ∧
          (height l = height r + 2 ∨ height r = height l + 2))) := by
  have el := getHeight_eq_height hl
  have er := getHeight_eq_height hr
  by_cases c1 : height l = height r + 2
  · obtain ⟨t, ht, hok, bal, hh⟩ := removeRebalance_left l r d hl bl hr br c1
    exact ⟨t, ht, hok, bal, by omega⟩
  · by_cases c2 : height r = height l + 2
    · obtain ⟨t, ht, hok, bal, hh⟩ := removeRebalance_right l r d hl bl hr br c2
      exact ⟨t, ht, hok, bal, by omega⟩
    · rw [removeRebalance_noop _ (by simp [el, er]; omega) (by simp [el, er]; omega)]
      refine ⟨_, rfl, ?_, ?_, Or.inl ?_⟩
      · simp [HeightsOK, hl, hr, el, er]
      · simp only [IsBalanced]
        exact ⟨⟨by omega, by omega⟩, bl, br⟩
      · simp [height]

theorem successorData_node (h : Nat) (l r : BinaryTreeNode α) (d : α) :
    ∃ s, successorData (node h l r d) = some s := by
  induction l generalizing h r d with
  | nil => exact ⟨d, rfl⟩
  | node hl a b e iha _ =>
    obtain ⟨s, hs⟩ := iha hl b e
    exact ⟨s, by simpa [successorData, isNull] using hs⟩

/-- The AVL step of `remove`: on a tree with correct cached heights that is balanced, `remove`
returns a tree with correct cached heights that is balanced, of the same height or one less. -/
theorem remove_avl (comp : α → α → Int) :
    ∀ (t : BinaryTreeNode α) (x : α), HeightsOK t → IsBalanced t →
      ∃ t1, remove comp t x = some t1 ∧ HeightsOK t1 ∧ IsBalanced t1 ∧
        (height t1 = height t ∨ height t1 + 1 = height t) := by
  intro t
  induction t with
  | nil =>
    intro x _ _
    exact ⟨nil, rfl, trivial, trivial, Or.inl rfl⟩
  | node h l r d ihl ihr =>
    intro x hok bal
    obtain ⟨he, hl, hr⟩ := hok
    obtain ⟨blr, bl, br⟩ := bal
    by_cases c1 : comp x d < 0
    · obtain ⟨l1, e1, hl1, bl1, hgt⟩ := ihl x hl bl
      obtain ⟨t1, ht1, hok1, bal1, hh1⟩ :=
        removeRebalance_avl l1 r d hl1 bl1 hr br (by omega) (by omega)
      refine ⟨t1, ?_, hok1, bal1, ?_⟩
      · simp only [remove, c1, if_true, e1, Option.bind_eq_bind, Option.some_bind, setLeft_node]
        exact ht1
      · simp only [height]
        omega
    · by_cases c2 : 0 < comp x d
      · obtain ⟨r1, e1, hr1, br1, hgt⟩ := ihr x hr br
        obtain ⟨t1, ht1, hok1, bal1, hh1⟩ :=
          removeRebalance_avl l r1 d hl bl hr1 br1 (by omega) (by omega)
        refine ⟨t1, ?_, hok1, bal1, ?_⟩
        · simp only [remove, c1, c2, if_true, if_false, gt_iff_lt, e1, Option.bind_eq_bind,
            Option.some_bind, setRight_node]
          exact ht1
        · simp only [height]
          omega
      · cases l with
        | nil =>
          cases r with
          | nil =>
            refine ⟨nil, ?_, trivial, trivial, Or.inr ?_⟩
            · simp [remove, c1, c2, isNull]
            · simp [height]
          | node hr2 rl rr rd =>
            refine ⟨node hr2 rl rr rd, ?_, hr, br, Or.inr ?_⟩
            · simp [remove, c1, c2, isNull]
            · simp only [height]; omega
        | node hl2 ll lr ld =>
          cases r with
          | nil =>
            refine ⟨node hl2 ll lr ld, ?_, hl, bl, Or.inr ?_⟩
            · simp [remove, c1, c2, isNull]
            · simp only [height]; omega
          | node hr2 rl rr rd =>
            obtain ⟨s, hs⟩ := successorData_node hr2 rl rr rd
            obtain ⟨r1, e1, hr1, br1, hgt⟩ := ihr s hr br
            obtain ⟨t1, ht1, hok1, bal1, hh1⟩ :=
              removeRebalance_avl (node hl2 ll lr ld) r1 s hl bl hr1 br1 (by omega) (by omega)
            refine ⟨t1, ?_, hok1, bal1, ?_⟩
            · rw [remove]
              simp only [c1, c2, if_false, gt_iff_lt, hs, e1, Option.bind_eq_bind,
                Option.some_bind, setData_node, setRight_node, isNull_node, Bool.false_eq_true]
              exact ht1
            · simp only [height] at hh1 hgt blr ⊢
              omega

/-! ## The comparator -/

namespace AVL_Tree.IsTotalCompare

variable {comp : α → α → Int} (hc : IsTotalCompare comp)
include hc

theorem refl (a : α) : comp a a = 0 := by
  have := hc.swap a a
  omega

theorem lt_iff (a b : α) : comp a b < 0 ↔ 0 < comp b a := (hc.swap b a).symm

theorem eq_symm {a b : α} (h : comp a b = 0) : comp b a = 0 := by
  have h1 := hc.swap a b
  have h2 := hc.swap b a
  omega

theorem lt_of_lt_of_le {a b c : α} (h1 : comp a b < 0) (h2 : comp b c ≤ 0) : comp a c < 0 := by
  have h3 := hc.le_trans a b c (by omega) h2
  by_contra hcon
  have h4 : comp a c = 0 := by omega
  have h5 := hc.le_trans b c a h2 (by have := hc.eq_symm h4; omega)
  have h6 := hc.swap b a
  omega

theorem lt_of_le_of_lt {a b c : α} (h1 : comp a b ≤ 0) (h2 : comp b c < 0) : comp a c < 0 := by
  have h3 := hc.le_trans a b c h1 (by omega)
  by_contra hcon
  have h4 : comp a c = 0 := by omega
  have h5 := hc.le_trans c a b (by have := hc.eq_symm h4; omega) h1
  have h6 := hc.swap c b
  omega

theorem lt_trans {a b c : α} (h1 : comp a b < 0) (h2 : comp b c < 0) : comp a c < 0 :=
  hc.lt_of_lt_of_le h1 (by omega)

end AVL_Tree.IsTotalCompare

/-! ## In-order traversal and order -/

theorem ordered_node (comp : α → α → Int) (h : Nat) (l r : BinaryTreeNode α) (d : α) :
    Ordered comp (node h l r d) ↔
      Ordered comp l ∧ Ordered comp r ∧ (∀ a ∈ inorder l, comp a d < 0) ∧
        (∀ b ∈ inorder r, comp d b < 0) ∧ ∀ a ∈ inorder l, ∀ b ∈ inorder r, comp a b < 0 := by
  simp only [Ordered, inorder, List.pairwise_append, List.pairwise_cons, List.mem_cons]
  constructor
  · rintro ⟨h1, ⟨h2, h3⟩, h4⟩
    exact ⟨h1, h3, fun a ha => h4 a ha d (Or.inl rfl), h2, fun a ha b hb => h4 a ha b (Or.inr hb)⟩
  · rintro ⟨h1, h2, h3, h4, h5⟩
    refine ⟨h1, ⟨h4, h2⟩, ?_⟩
    rintro a ha b (rfl | hb)
    · exact h3 a ha
    · exact h5 a ha b hb

theorem rightRotate_inorder {y t : BinaryTreeNode α} (h : rightRotate y = some t) :
    inorder t = inorder y := by
  cases y with
  | nil => simp [rightRotate, getLeft] at h
  | node hy x r d =>
    cases x with
    | nil => simp [rightRotate, getRight] at h
    | node hx a b e =>
      rw [rightRotate_node] at h
      cases h
      simp [inorder]

theorem leftRotate_inorder {x t : BinaryTreeNode α} (h : leftRotate x = some t) :
    inorder t = inorder x := by
  cases x with
  | nil => simp [leftRotate, getRight] at h
  | node hx l y d =>
    cases y with
    | nil => simp [leftRotate, getLeft] at h
    | node hy a b e =>
      rw [leftRotate_node] at h
      cases h
      simp [inorder]

theorem setLeft_inorder {n c t : BinaryTreeNode α} (h : setLeft n c = some t) :
    ∃ hn l r d, n = node hn l r d ∧ inorder t = inorder c ++ d :: inorder r := by
  cases n with
  | nil => simp [setLeft] at h
  | node hn l r d =>
    rw [setLeft_node] at h
    cases h
    exact ⟨hn, l, r, d, rfl, rfl⟩

theorem setRight_inorder {n c t : BinaryTreeNode α} (h : setRight n c = some t) :
    ∃ hn l r d, n = node hn l r d ∧ inorder t = inorder l ++ d :: inorder c := by
  cases n with
  | nil => simp [setRight] at h
  | node hn l r d =>
    rw [setRight_node] at h
    cases h
    exact ⟨hn, l, r, d, rfl, rfl⟩

/-- The double rotation "rotate the left child to the left, then the node to the right". -/
theorem leftRight_inorder {n t : BinaryTreeNode α} {hn : Nat} {l r : BinaryTreeNode α} {d : α}
    (hnode : n = node hn l r d)
    (h : (leftRotate l).bind (fun l1 => (setLeft n l1).bind fun n1 => rightRotate n1) = some t) :
    inorder t = inorder n := by
  subst hnode
  simp only [Option.bind_eq_some] at h
  obtain ⟨l1, h1, n1, h2, h3⟩ := h
  rw [rightRotate_inorder h3]
  rw [setLeft_node] at h2
  cases h2
  simp [inorder, leftRotate_inorder h1]

/-- The double rotation "rotate the right child to the right, then the node to the left". -/
theorem rightLeft_inorder {n t : BinaryTreeNode α} {hn : Nat} {l r : BinaryTreeNode α} {d : α}
    (hnode : n = node hn l r d)
    (h : (rightRotate r).bind (fun r1 => (setRight n r1).bind fun n1 => leftRotate n1) = some t) :
    inorder t = inorder n := by
  subst hnode
  simp only [Option.bind_eq_some] at h
  obtain ⟨r1, h1, n1, h2, h3⟩ := h
  rw [leftRotate_inorder h3]
  rw [setRight_node] at h2
  cases h2
  simp [inorder, rightRotate_inorder h1]

theorem insertRebalance_inorder (comp : α → α → Int) {n t : BinaryTreeNode α} {x : α}
    (h : insertRebalance comp n x = some t) : inorder t = inorder n := by
  cases n with
  | nil =>
    simp [insertRebalance, getBalance] at h
    subst h
    rfl
  | node hn l r d =>
    unfold insertRebalance at h
    simp only [Option.bind_eq_bind, getLeft_node, getRight_node, Option.some_bind] at h
    split_ifs at h with c1 c2
    · simp only [Option.bind_eq_some] at h
      obtain ⟨ld, _, h⟩ := h
      split_ifs at h
      · exact leftRight_inorder rfl h
      · exact rightRotate_inorder h
    · simp only [Option.bind_eq_some] at h
      obtain ⟨rd, _, h⟩ := h
      split_ifs at h
      · exact rightLeft_inorder rfl h
      · exact leftRotate_inorder h
    · cases h
      rfl

theorem removeRebalance_inorder {n t : BinaryTreeNode α}
    (h : removeRebalance n = some t) : inorder t = inorder n := by
  cases n with
  | nil =>
    simp [removeRebalance, getBalance] at h
    subst h
    rfl
  | node hn l r d =>
    unfold removeRebalance at h
    simp only [Option.bind_eq_bind, getLeft_node, getRight_node, Option.some_bind] at h
    split_ifs at h with c1 c2 c3 c4
    · exact leftRight_inorder rfl h
    · exact rightRotate_inorder h
    · exact rightLeft_inorder rfl h
    · exact leftRotate_inorder h
    · cases h
      rfl

/-! ## `insert` and the in-order traversal -/

theorem insertSorted_append_lt (comp : α → α → Int) (x d : α) (hd : comp x d < 0)
    (l1 l2 : List α) :
    insertSorted comp x (l1 ++ d :: l2) = insertSorted comp x l1 ++ d :: l2 := by
  induction l1 with
  | nil => simp [insertSorted, hd]
  | cons a as ih =>
    rw [List.cons_append, insertSorted, insertSorted]
    split_ifs
    · rfl
    · rw [ih]
      rfl
    · rfl

theorem insertSorted_append_gt (comp : α → α → Int) (x : α) (l1 l2 : List α)
    (h1 : ∀ a ∈ l1, 0 < comp x a) :
    insertSorted comp x (l1 ++ l2) = l1 ++ insertSorted comp x l2 := by
  induction l1 with
  | nil => rfl
  | cons a as ih =>
    have ha := h1 a (List.mem_cons_self a as)
    rw [List.cons_append, insertSorted, if_neg (by omega), if_pos ha,
      ih (fun b hb => h1 b (List.mem_cons_of_mem a hb))]
    rfl

theorem mem_insertSorted (comp : α → α → Int) (x : α) (l : List α) (b : α)
    (hb : b ∈ insertSorted comp x l) : b = x ∨ b ∈ l := by
  induction l with
  | nil => simpa [insertSorted] using hb
  | cons a as ih =>
    simp only [insertSorted] at hb
    split_ifs at hb
    · simpa using hb
    · rcases List.mem_cons.1 hb with rfl | hb
      · exact Or.inr (List.mem_cons_self _ _)
      · rcases ih hb with h | h
        · exact Or.inl h
        · exact Or.inr (List.mem_cons_of_mem a h)
    · exact Or.inr hb

theorem pairwise_insertSorted {comp : α → α → Int} (hc : IsTotalCompare comp) (x : α)
    (l : List α) (hl : l.Pairwise (fun a b => comp a b < 0)) :
    (insertSorted comp x l).Pairwise (fun a b => comp a b < 0) := by
  induction l with
  | nil => simp [insertSorted]
  | cons a as ih =>
    rw [List.pairwise_cons] at hl
    simp only [insertSorted]
    split_ifs with c1 c2
    · refine List.pairwise_cons.2 ⟨?_, List.pairwise_cons.2 hl⟩
      intro b hb
      rcases List.mem_cons.1 hb with rfl | hb
      · exact c1
      · exact hc.lt_trans c1 (hl.1 b hb)
    · refine List.pairwise_cons.2 ⟨?_, ih hl.2⟩
      intro b hb
      rcases mem_insertSorted comp x as b hb with rfl | hb
      · exact (hc.lt_iff a b).2 c2
      · exact hl.1 b hb
    · exact List.pairwise_cons.2 hl

/-- Whenever `insert` returns a tree on a strictly ordered tree, its in-order traversal is the
in-order traversal of the argument with the item placed at its sorted position. -/
theorem insert_inorder {comp : α → α → Int} (hc : IsTotalCompare comp) (x : α) :
    ∀ (t t1 : BinaryTreeNode α), Ordered comp t → AVL_Tree.insert comp t x = some t1 →
      inorder t1 = insertSorted comp x (inorder t) := by
  intro t
  induction t with
  | nil =>
    intro t1 _ h
    simp only [AVL_Tree.insert, Option.some.injEq] at h
    subst h
    rfl
  | node h l r d ihl ihr =>
    intro t1 ho ht
    obtain ⟨ol, or, hld, hrd, hlr⟩ := (ordered_node comp h l r d).1 ho
    rw [AVL_Tree.insert] at ht
    simp only [Option.bind_eq_bind, setLeft_node, setRight_node, Option.some_bind] at ht
    split_ifs at ht with c1 c2
    · simp only [Option.bind_eq_some] at ht
      obtain ⟨l1, hl1, ht⟩ := ht
      rw [insertRebalance_inorder comp ht]
      simp only [inorder]
      rw [ihl l1 ol hl1, insertSorted_append_lt comp x d c1]
    · simp only [Option.bind_eq_some] at ht
      obtain ⟨r1, hr1, ht⟩ := ht
      rw [insertRebalance_inorder comp ht]
      simp only [inorder]
      rw [ihr r1 or hr1, insertSorted_append_gt comp x (inorder l) (d :: inorder r), insertSorted,
        if_neg c1, if_pos c2]
      intro a ha
      exact (hc.lt_iff a x).1 (hc.lt_trans (hld a ha) ((hc.lt_iff d x).2 c2))
    · cases ht
      simp only [inorder]
      rw [insertSorted_append_gt comp x (inorder l) (d :: inorder r), insertSorted,
        if_neg c1, if_neg c2]
      intro a ha
      have hdx : comp d x ≤ 0 := by
        have := hc.swap d x
        omega
      exact (hc.lt_iff a x).1 (hc.lt_of_lt_of_le (hld a ha) hdx)

/-! ## `remove` always returns, and its in-order traversal -/

/-- The rebalancing step of `remove` never dereferences `nullptr`: a positive balance factor
means the taller child exists. -/
theorem removeRebalance_total (n : BinaryTreeNode α) : ∃ t, removeRebalance n = some t := by
  cases n with
  | nil => exact ⟨nil, by simp [removeRebalance, getBalance]⟩
  | node hn l r d =>
    unfold removeRebalance
    simp only [getBalance_node, Option.bind_eq_bind, getLeft_node, getRight_node,
      Option.some_bind]
    split_ifs with c1 c2 c3 c4
    · cases l with
      | nil => simp at c1; omega
      | node hl a b e =>
        cases b with
        | nil => simp at c2; omega
        | node hb b1 b2 f => simp [leftRotate_node, rightRotate_node]
    · cases l with
      | nil => simp at c1; omega
      | node hl a b e => simp [rightRotate_node]
    · cases r with
      | nil => simp at c3; omega
      | node hr a b e =>
        cases a with
        | nil => simp at c4; omega
        | node ha a1 a2 f => simp [leftRotate_node, rightRotate_node]
    · cases r with
      | nil => simp at c3; omega
      | node hr a b e => simp [leftRotate_node]
    · exact ⟨_, rfl⟩

/-- The static `remove` returns a tree on every tree and every item. -/
theorem remove_total (comp : α → α → Int) :
    ∀ (t : BinaryTreeNode α) (x : α), ∃ t1, remove comp t x = some t1 := by
  intro t
  induction t with
  | nil => exact fun x => ⟨nil, rfl⟩
  | node h l r d ihl ihr =>
    intro x
    rw [remove]
    simp only [Option.bind_eq_bind, setLeft_node, setRight_node, setData_node, Option.some_bind]
    split_ifs with c1 c2 c3 c4 c5
    · obtain ⟨l1, hl1⟩ := ihl x
      rw [hl1]
      exact removeRebalance_total _
    · obtain ⟨r1, hr1⟩ := ihr x
      rw [hr1]
      exact removeRebalance_total _
    · exact ⟨_, rfl⟩
    · exact ⟨_, rfl⟩
    · exact ⟨_, rfl⟩
    · cases r with
      | nil => simp at c5
      | node hr rl rr rd =>
        obtain ⟨s, hs⟩ := successorData_node hr rl rr rd
        obtain ⟨r1, hr1⟩ := ihr s
        rw [hs, Option.some_bind, hr1]
        exact removeRebalance_total _

theorem successorData_inorder {t : BinaryTreeNode α} {s : α} (h : successorData t = some s) :
    ∃ rest, inorder t = s :: rest := by
  induction t with
  | nil => simp [successorData] at h
  | node hn l r d ihl _ =>
    rw [successorData] at h
    split_ifs at h with c
    · cases l with
      | nil =>
        cases h
        exact ⟨inorder r, rfl⟩
      | node _ _ _ _ => simp at c
    · obtain ⟨rest, hrest⟩ := ihl h
      exact ⟨rest ++ d :: inorder r, by simp [inorder, hrest]⟩

/-- Whenever `remove` returns a tree on a strictly ordered tree, its in-order traversal is the
in-order traversal of the argument without the elements that compare equal to the item. -/
theorem remove_inorder {comp : α → α → Int} (hc : IsTotalCompare comp) :
    ∀ (t t1 : BinaryTreeNode α) (x : α), Ordered comp t → remove comp t x = some t1 →
      inorder t1 = (inorder t).filter (fun a => decide (comp x a ≠ 0)) := by
  intro t
  induction t with
  | nil =>
    intro t1 x _ h
    simp only [remove, Option.some.injEq] at h
    subst h
    rfl
  | node h l r d ihl ihr =>
    intro t1 x ho ht
    obtain ⟨ol, or, hld, hrd, hlr⟩ := (ordered_node comp h l r d).1 ho
    rw [remove] at ht
    simp only [Option.bind_eq_bind, setLeft_node, setRight_node, setData_node,
      Option.some_bind] at ht
    have keepL : comp d x ≤ 0 → (inorder l).filter (fun a => decide (comp x a ≠ 0)) = inorder l := by
      intro hdx
      rw [List.filter_eq_self]
      intro a ha
      have := (hc.lt_iff a x).1 (hc.lt_of_lt_of_le (hld a ha) hdx)
      simp only [decide_eq_true_eq]
      omega
    have keepR : comp x d ≤ 0 → (inorder r).filter (fun a => decide (comp x a ≠ 0)) = inorder r := by
      intro hxd
      rw [List.filter_eq_self]
      intro b hb
      have := hc.lt_of_le_of_lt hxd (hrd b hb)
      simp only [decide_eq_true_eq]
      omega
    have hsw := hc.swap d x
    have hsw2 := hc.swap x d
    simp only [inorder, List.filter_append, List.filter_cons]
    split_ifs at ht with c1 c2 c3 c4 c5
    · simp only [Option.bind_eq_some] at ht
      obtain ⟨l1, hl1, ht⟩ := ht
      rw [removeRebalance_inorder ht, keepR (by omega), if_pos (by simp; omega)]
      simp only [inorder]
      rw [ihl l1 x ol hl1]
    · simp only [Option.bind_eq_some] at ht
      obtain ⟨r1, hr1, ht⟩ := ht
      rw [removeRebalance_inorder ht, keepL (by omega), if_pos (by simp; omega)]
      simp only [inorder]
      rw [ihr r1 x or hr1]
    · cases ht
      cases l with
      | nil =>
        cases r with
        | nil =>
          have : comp x d = 0 := by omega
          simp [inorder, this]
        | node _ _ _ _ => simp at c4
      | node _ _ _ _ => simp at c3
    · cases ht
      cases l with
      | nil =>
        rw [keepR (by omega), if_neg (by simp; omega)]
        simp [inorder]
      | node _ _ _ _ => simp at c3
    · cases ht
      cases r with
      | nil =>
        rw [keepL (by omega), if_neg (by simp; omega)]
        simp [inorder]
      | node _ _ _ _ => simp at c5
    · simp only [Option.bind_eq_some] at ht
      obtain ⟨s, hs, r1, hr1, ht⟩ := ht
      obtain ⟨rest, hrest⟩ := successorData_inorder hs
      rw [removeRebalance_inorder ht, keepL (by omega), keepR (by omega),
        if_neg (by simp; omega)]
      simp only [inorder]
      rw [ihr r1 s or hr1, hrest, List.filter_cons, if_neg (by simp [hc.refl s]),
        List.filter_eq_self.2]
      intro b hb
      have hrs : (s :: rest).Pairwise (fun a b => comp a b < 0) := by
        rw [← hrest]
        exact or
      have := (List.pairwise_cons.1 hrs).1 b hb
      simp only [decide_eq_true_eq]
      omega

/-! ## The bracketing lookup -/

/-- The loop of `lookup` on a strictly ordered subtree: each running pointer is either left as
it was (no element of the subtree is on its side of the query) or set to the tightest element of
the subtree on its side. -/
theorem lookupLoop_spec {comp : α → α → Int} (hc : IsTotalCompare comp) (q : α) :
    ∀ (t : BinaryTreeNode α) (lower upper : Option α), Ordered comp t →
      (((lookupLoop comp q t lower upper).1 = lower ∧ ∀ a ∈ inorder t, ¬ comp a q ≤ 0) ∨
        ∃ e, (lookupLoop comp q t lower upper).1 = some e ∧
          IsLowerBracket comp (inorder t) q (some e)) ∧
      (((lookupLoop comp q t lower upper).2 = upper ∧ ∀ a ∈ inorder t, ¬ comp q a ≤ 0) ∨
        ∃ e, (lookupLoop comp q t lower upper).2 = some e ∧
          IsUpperBracket comp (inorder t) q (some e)) := by
  intro t
  induction t with
  | nil =>
    intro lower upper _
    exact ⟨Or.inl ⟨rfl, by simp [inorder]⟩, Or.inl ⟨rfl, by simp [inorder]⟩⟩
  | node h l r d ihl ihr =>
    intro lower upper ho
    obtain ⟨ol, or, hld, hrd, hlr⟩ := (ordered_node comp h l r d).1 ho
    have hsw := hc.swap q d
    have hsw2 := hc.swap d q
    rw [lookupLoop]
    simp only [inorder, List.mem_append, List.mem_cons, IsLowerBracket, IsUpperBracket]
    split_ifs with c1 c2
    · -- the query is less than the node: go left, the node is the new upper candidate
      have hr_gt : ∀ b ∈ inorder r, comp q b < 0 := fun b hb => hc.lt_trans c1 (hrd b hb)
      have hr_gt2 : ∀ b ∈ inorder r, ¬ comp b q ≤ 0 := fun b hb => by
        have := (hc.lt_iff q b).1 (hr_gt b hb)
        omega
      obtain ⟨hlo, hup⟩ := ihl lower (some d) ol
      constructor
      · rcases hlo with ⟨e1, e2⟩ | ⟨e, e1, e2, e3, e4⟩
        · left
          refine ⟨e1, ?_⟩
          rintro a (ha | rfl | ha)
          · exact e2 a ha
          · omega
          · exact hr_gt2 a ha
        · right
          refine ⟨e, e1, Or.inl e2, e3, ?_⟩
          rintro a (ha | rfl | ha) haq
          · exact e4 a ha haq
          · omega
          · exact absurd haq (hr_gt2 a ha)
      · right
        rcases hup with ⟨e1, e2⟩ | ⟨e, e1, e2, e3, e4⟩
        · refine ⟨d, e1, Or.inr (Or.inl rfl), by omega, ?_⟩
          rintro a (ha | rfl | ha) haq
          · exact absurd haq (e2 a ha)
          · rw [hc.refl]
          · have := hrd a ha
            omega
        · refine ⟨e, e1, Or.inl e2, e3, ?_⟩
          rintro a (ha | rfl | ha) haq
          · exact e4 a ha haq
          · have := hld e e2
            omega
          · have := hlr e e2 a ha
            omega
    · -- the query is greater than the node: go right, the node is the new lower candidate
      have c2 : 0 < comp q d := c2
      have hl_lt : ∀ a ∈ inorder l, comp a q < 0 := fun a ha =>
        hc.lt_trans (hld a ha) (by omega)
      have hl_lt2 : ∀ a ∈ inorder l, ¬ comp q a ≤ 0 := fun a ha => by
        have := (hc.lt_iff a q).1 (hl_lt a ha)
        omega
      obtain ⟨hlo, hup⟩ := ihr (some d) upper or
      constructor
      · right
        rcases hlo with ⟨e1, e2⟩ | ⟨e, e1, e2, e3, e4⟩
        · refine ⟨d, e1, Or.inr (Or.inl rfl), by omega, ?_⟩
          rintro a (ha | rfl | ha) haq
          · have := hld a ha
            omega
          · rw [hc.refl]
          · exact absurd haq (e2 a ha)
        · refine ⟨e, e1, Or.inr (Or.inr e2), e3, ?_⟩
          rintro a (ha | rfl | ha) haq
          · have := hlr a ha e e2
            omega
          · have := hrd e e2
            omega
          · exact e4 a ha haq
      · rcases hup with ⟨e1, e2⟩ | ⟨e, e1, e2, e3, e4⟩
        · left
          refine ⟨e1, ?_⟩
          rintro a (ha | rfl | ha)
          · exact hl_lt2 a ha
          · omega
          · exact e2 a ha
        · right
          refine ⟨e, e1, Or.inr (Or.inr e2), e3, ?_⟩
          rintro a (ha | rfl | ha) haq
          · exact absurd haq (hl_lt2 a ha)
          · omega
          · exact e4 a ha haq
    · -- exact match
      have hqd : comp q d = 0 := by omega
      have hdq : comp d q = 0 := hc.eq_symm hqd
      constructor
      · right
        refine ⟨d, rfl, Or.inr (Or.inl rfl), by omega, ?_⟩
        rintro a (ha | rfl | ha) haq
        · have := hld a ha
          omega
        · rw [hc.refl]
        · have := hc.lt_of_le_of_lt (by omega : comp q d ≤ 0) (hrd a ha)
          have := (hc.lt_iff q a).1 this
          omega
      · right
        refine ⟨d, rfl, Or.inr (Or.inl rfl), by omega, ?_⟩
        rintro a (ha | rfl | ha) haq
        · have := hc.lt_of_lt_of_le (hld a ha) (by omega : comp d q ≤ 0)
          have := (hc.lt_iff a q).1 this
          omega
        · rw [hc.refl]
        · have := hrd a ha
          omega

theorem ordered_eq_of_comp_eq {comp : α → α → Int} (hc : IsTotalCompare comp) :
    ∀ (xs : List α), xs.Pairwise (fun a b => comp a b < 0) →
      ∀ a ∈ xs, ∀ b ∈ xs, comp a b = 0 → a = b := by
  intro xs
  induction xs with
  | nil => intro _ a ha; simp at ha
  | cons c cs ih =>
    intro hp a ha b hb hab
    rw [List.pairwise_cons] at hp
    rcases List.mem_cons.1 ha with ha1 | ha1
    · rcases List.mem_cons.1 hb with hb1 | hb1
      · rw [ha1, hb1]
      · have := hp.1 b hb1
        rw [ha1] at hab
        omega
    · rcases List.mem_cons.1 hb with hb1 | hb1
      · have := hp.1 a ha1
        have := hc.eq_symm hab
        rw [hb1] at this
        omega
      · exact ih hp.2 a ha1 b hb1 hab

theorem lookup_lower {comp : α → α → Int} (hc : IsTotalCompare comp) (t : BinaryTreeNode α)
    (q : α) (ho : Ordered comp t) :
    IsLowerBracket comp (inorder t) q (AVL_Tree.lookup comp t q).1 := by
  rcases (lookupLoop_spec hc q t none none ho).1 with ⟨e1, e2⟩ | ⟨e, e1, e2⟩
  · rw [AVL_Tree.lookup, e1]
    exact e2
  · rw [AVL_Tree.lookup, e1]
    exact e2

theorem lookup_upper {comp : α → α → Int} (hc : IsTotalCompare comp) (t : BinaryTreeNode α)
    (q : α) (ho : Ordered comp t) :
    IsUpperBracket comp (inorder t) q (AVL_Tree.lookup comp t q).2 := by
  rcases (lookupLoop_spec hc q t none none ho).2 with ⟨e1, e2⟩ | ⟨e, e1, e2⟩
  · rw [AVL_Tree.lookup, e1]
    exact e2
  · rw [AVL_Tree.lookup, e1]
    exact e2

/-- On a strictly ordered tree an element comparing equal to the query is both brackets. -/
theorem lookup_exact {comp : α → α → Int} (hc : IsTotalCompare comp) (t : BinaryTreeNode α)
    (q : α) (ho : Ordered comp t) (e : α) (he : e ∈ inorder t) (hqe : comp q e = 0) :
    AVL_Tree.lookup comp t q = (some e, some e) := by
  have heq : comp e q = 0 := hc.eq_symm hqe
  have hlo := lookup_lower hc t q ho
  have hup := lookup_upper hc t q ho
  have h1 : (AVL_Tree.lookup comp t q).1 = some e := by
    cases hl : (AVL_Tree.lookup comp t q).1 with
    | none =>
      rw [hl] at hlo
      exact absurd (by omega) (hlo e he)
    | some e1 =>
      rw [hl] at hlo
      obtain ⟨m1, m2, m3⟩ := hlo
      have h3 := m3 e he (by omega)
      have h4 := hc.le_trans e1 q e m2 (by omega)
      have h5 := hc.swap e1 e
      rw [ordered_eq_of_comp_eq hc _ ho e he e1 m1 (by omega)]
  have h2 : (AVL_Tree.lookup comp t q).2 = some e := by
    cases hu : (AVL_Tree.lookup comp t q).2 with
    | none =>
      rw [hu] at hup
      exact absurd (by omega) (hup e he)
    | some e1 =>
      rw [hu] at hup
      obtain ⟨m1, m2, m3⟩ := hup
      have h3 := m3 e he (by omega)
      have h4 := hc.le_trans e q e1 (by omega) m2
      have h5 := hc.swap e1 e
      have h6 := hc.swap e e1
      rw [ordered_eq_of_comp_eq hc _ ho e he e1 m1 (by omega)]
  exact Prod.ext h1 h2

/-! ## Sequences of calls -/

theorem run_avl_ordered {comp : α → α → Int} (hc : IsTotalCompare comp) (ops : List (Op α)) :
    ∀ t : BinaryTreeNode α, Ordered comp t → HeightsOK t → IsBalanced t →
      ∃ t1, run comp t ops = some t1 ∧ Ordered comp t1 ∧ HeightsOK t1 ∧ IsBalanced t1 := by
  induction ops with
  | nil => exact fun t ho hh hb => ⟨t, rfl, ho, hh, hb⟩
  | cons op ops ih =>
    intro t ho hh hb
    cases op with
    | insert x =>
      obtain ⟨t1, h1, hh1, hb1, _⟩ := insert_avl comp x t hh hb
      have ho1 : Ordered comp t1 := by
        unfold Ordered
        rw [insert_inorder hc x t t1 ho h1]
        exact pairwise_insertSorted hc x _ ho
      obtain ⟨t2, h2, r2⟩ := ih t1 ho1 hh1 hb1
      exact ⟨t2, by simp [run, applyOp, h1, h2], r2⟩
    | remove x =>
      obtain ⟨t1, h1, hh1, hb1, _⟩ := remove_avl comp t x hh hb
      have ho1 : Ordered comp t1 := by
        unfold Ordered
        rw [remove_inorder hc t t1 x ho h1]
        exact List.Pairwise.filter _ ho
      obtain ⟨t2, h2, r2⟩ := ih t1 ho1 hh1 hb1
      exact ⟨t2, by simp [run, applyOp, h1, h2], r2⟩

theorem run_avl (comp : α → α → Int) (ops : List (Op α)) :
    ∀ t : BinaryTreeNode α, HeightsOK t → IsBalanced t →
      ∃ t1, run comp t ops = some t1 ∧ HeightsOK t1 ∧ IsBalanced t1 := by
  induction ops with
  | nil => exact fun t hh hb => ⟨t, rfl, hh, hb⟩
  | cons op ops ih =>
    intro t hh hb
    cases op with
    | insert x =>
      obtain ⟨t1, h1, hh1, hb1, _⟩ := insert_avl comp x t hh hb
      obtain ⟨t2, h2, r2⟩ := ih t1 hh1 hb1
      exact ⟨t2, by simp [run, applyOp, h1, h2], r2⟩
    | remove x =>
      obtain ⟨t1, h1, hh1, hb1, _⟩ := remove_avl comp t x hh hb
      obtain ⟨t2, h2, r2⟩ := ih t1 hh1 hb1
      exact ⟨t2, by simp [run, applyOp, h1, h2], r2⟩

/-! ## The comparator of the lookup tables -/

section CompareKeys

variable {K P : Type} [LinearOrder K]

theorem compareKeys_lt (a b : K × P) : compareKeys a b < 0 ↔ a.1 < b.1 := by
  unfold compareKeys
  split_ifs with h1 h2
  · simp [h1]
  · simp only [gt_iff_lt] at h2
    simp [h2.le]
  · simp only [gt_iff_lt, not_lt] at h2
    simp [lt_of_le_of_ne h2 h1]

theorem compareKeys_gt (a b : K × P) : 0 < compareKeys a b ↔ b.1 < a.1 := by
  unfold compareKeys
  split_ifs with h1 h2
  · simp [h1]
  · simp only [gt_iff_lt] at h2
    simp [h2]
  · simp only [gt_iff_lt] at h2
    simp [h2]

theorem compareKeys_eq (a b : K × P) : compareKeys a b = 0 ↔ a.1 = b.1 := by
  unfold compareKeys
  split_ifs with h1 h2 <;> simp [h1]

theorem compareKeys_le (a b : K × P) : compareKeys a b ≤ 0 ↔ a.1 ≤ b.1 := by
  have h := compareKeys_gt a b
  constructor
  · intro h1
    by_contra h2
    have := h.2 (not_le.1 h2)
    omega
  · intro h1
    by_contra h2
    exact absurd h1 (not_le.2 (h.1 (by omega)))

/-- The comparator `compareKeys` is a total preorder on `(key, payload)` pairs. -/
theorem compareKeys_total : IsTotalCompare (compareKeys : K × P → K × P → Int) where
  swap a b := by rw [compareKeys_gt, compareKeys_lt]
  le_trans a b c := by
    simp only [compareKeys_le]
    exact le_trans

end CompareKeys

/-! ## Brackets in a table -/

section Brackets

variable {K P : Type} [LinearOrder K]

/-- In a strictly ordered table two stored entries with the same key are the same entry. -/
theorem entry_unique (t : BinaryTreeNode (K × P)) (ho : Ordered compareKeys t)
    (a b : K × P) (ha : a ∈ inorder t) (hb : b ∈ inorder t) (hk : a.1 = b.1) : a = b :=
  ordered_eq_of_comp_eq compareKeys_total _ ho a ha b hb ((compareKeys_eq a b).2 hk)

/-- The lower bracket is the stored entry with the largest key not above the query. -/
theorem lookup_lower_eq (t : BinaryTreeNode (K × P)) (ho : Ordered compareKeys t)
    (q : K × P) (e : K × P) (he : e ∈ inorder t) (h1 : e.1 ≤ q.1)
    (hadj : ∀ a ∈ inorder t, e.1 < a.1 → q.1 < a.1) :
    (AVL_Tree.lookup compareKeys t q).1 = some e := by
  have hlo := lookup_lower compareKeys_total t q ho
  cases hL : (AVL_Tree.lookup compareKeys t q).1 with
  | none =>
    rw [hL] at hlo
    exact absurd ((compareKeys_le _ _).2 h1) (hlo e he)
  | some e1 =>
    rw [hL] at hlo
    obtain ⟨m1, m2, m3⟩ := hlo
    have m2 := (compareKeys_le _ _).1 m2
    have m3 := (compareKeys_le _ _).1 (m3 e he ((compareKeys_le _ _).2 h1))
    have hek : e1.1 = e.1 := by
      rcases eq_or_lt_of_le m3 with h | h
      · exact h.symm
      · exact absurd (hadj e1 m1 h) (not_lt.2 m2)
    rw [entry_unique t ho e1 e m1 he hek]

/-- The upper bracket is the stored entry with the smallest key not below the query. -/
theorem lookup_upper_eq (t : BinaryTreeNode (K × P)) (ho : Ordered compareKeys t)
    (q : K × P) (e : K × P) (he : e ∈ inorder t) (h1 : q.1 ≤ e.1)
    (hadj : ∀ a ∈ inorder t, a.1 < e.1 → a.1 < q.1) :
    (AVL_Tree.lookup compareKeys t q).2 = some e := by
  have hup := lookup_upper compareKeys_total t q ho
  cases hU : (AVL_Tree.lookup compareKeys t q).2 with
  | none =>
    rw [hU] at hup
    exact absurd ((compareKeys_le _ _).2 h1) (hup e he)
  | some e1 =>
    rw [hU] at hup
    obtain ⟨m1, m2, m3⟩ := hup
    have m2 := (compareKeys_le _ _).1 m2
    have m3 := (compareKeys_le _ _).1 (m3 e he ((compareKeys_le _ _).2 h1))
    have hek : e1.1 = e.1 := by
      rcases eq_or_lt_of_le m3 with h | h
      · exact h
      · exact absurd (hadj e1 m1 h) (not_lt.2 m2)
    rw [entry_unique t ho e1 e m1 he hek]

/-- There is no lower bracket when every stored key is above the query. -/
theorem lookup_lower_none (t : BinaryTreeNode (K × P)) (ho : Ordered compareKeys t)
    (q : K × P) (h : ∀ a ∈ inorder t, q.1 < a.1) :
    (AVL_Tree.lookup compareKeys t q).1 = none := by
  have hlo := lookup_lower compareKeys_total t q ho
  cases hL : (AVL_Tree.lookup compareKeys t q).1 with
  | none => rfl
  | some e1 =>
    rw [hL] at hlo
    exact absurd ((compareKeys_le _ _).1 hlo.2.1) (not_le.2 (h e1 hlo.1))

/-- There is no upper bracket when every stored key is below the query. -/
theorem lookup_upper_none (t : BinaryTreeNode (K × P)) (ho : Ordered compareKeys t)
    (q : K × P) (h : ∀ a ∈ inorder t, a.1 < q.1) :
    (AVL_Tree.lookup compareKeys t q).2 = none := by
  have hup := lookup_upper compareKeys_total t q ho
  cases hU : (AVL_Tree.lookup compareKeys t q).2 with
  | none => rfl
  | some e1 =>
    rw [hU] at hup
    exact absurd ((compareKeys_le _ _).1 hup.2.1) (not_le.2 (h e1 hup.1))

end Brackets

/-! ## Lookups in a 1-D table -/

section Table1

variable {K V : Type} [LinearOrder K] [Sub K] [Div K] [Zero K] [Zero V] [Add V] [Sub V] [Mul V]

/-- A stored key is looked up through the exact-match branches of the tree lookup and of
`interp_impl`. -/
theorem lookup_sample (toDouble : K → V) (t : BinaryTreeNode (K × V))
    (ho : Ordered compareKeys t) (k : K) (v : V) (hm : (k, v) ∈ inorder t) :
    AVL_Tree.lookup compareKeys t (k, 0) = (some (k, v), some (k, v)) ∧
      LookupTable1.interp_impl toDouble (k, v) (k, v) (k, 0) = (k, v) ∧
      LookupTable1.lookup toDouble t k = v := by
  have e := lookup_exact compareKeys_total t (k, 0) ho (k, v) hm ((compareKeys_eq _ _).2 rfl)
  refine ⟨e, ?_, ?_⟩
  · simp [LookupTable1.interp_impl]
  · simp [LookupTable1.lookup, LookupTable1.interp, e, LookupTable1.interp_impl]

/-- Below the smallest stored key the lookup returns the value stored there. -/
theorem lookup_below (toDouble : K → V) (t : BinaryTreeNode (K × V))
    (ho : Ordered compareKeys t) (k : K) (v : V) (hm : (k, v) ∈ inorder t)
    (hmin : ∀ e ∈ inorder t, k ≤ e.1) (q : K) (hq : q < k) :
    AVL_Tree.lookup compareKeys t (q, 0) = (none, some (k, v)) ∧
      LookupTable1.lookup toDouble t q = v := by
  have e1 := lookup_lower_none t ho (q, (0 : V)) (fun a ha => lt_of_lt_of_le hq (hmin a ha))
  have e2 := lookup_upper_eq t ho (q, 0) (k, v) hm hq.le
    (fun a ha hlt => absurd (hmin a ha) (not_le.2 hlt))
  refine ⟨Prod.ext e1 e2, ?_⟩
  simp [LookupTable1.lookup, LookupTable1.interp, e1, e2]

/-- Above the largest stored key the lookup returns the value stored there. -/
theorem lookup_above (toDouble : K → V) (t : BinaryTreeNode (K × V))
    (ho : Ordered compareKeys t) (k : K) (v : V) (hm : (k, v) ∈ inorder t)
    (hmax : ∀ e ∈ inorder t, e.1 ≤ k) (q : K) (hq : k < q) :
    AVL_Tree.lookup compareKeys t (q, 0) = (some (k, v), none) ∧
      LookupTable1.lookup toDouble t q = v := by
  have e1 := lookup_upper_none t ho (q, (0 : V)) (fun a ha => lt_of_le_of_lt (hmax a ha) hq)
  have e2 := lookup_lower_eq t ho (q, 0) (k, v) hm hq.le
    (fun a ha hlt => absurd (hmax a ha) (not_le.2 hlt))
  refine ⟨Prod.ext e2 e1, ?_⟩
  simp [LookupTable1.lookup, LookupTable1.interp, e1, e2]

end Table1

/-! ## No-op calls -/

/-- On an AVL tree with correct cached heights, `insert` of an item that compares equal to a
stored element of a strictly ordered tree returns the very same tree. -/
theorem insert_duplicate {comp : α → α → Int} (hc : IsTotalCompare comp) (x : α) :
    ∀ t : BinaryTreeNode α, Ordered comp t → HeightsOK t → IsBalanced t →
      (∃ e ∈ inorder t, comp x e = 0) → AVL_Tree.insert comp t x = some t := by
  intro t
  induction t with
  | nil =>
    intro _ _ _ hd
    obtain ⟨e, he, _⟩ := hd
    simp [inorder] at he
  | node h l r d ihl ihr =>
    intro ho hok bal hd
    obtain ⟨ol, or, hld, hrd, hlr⟩ := (ordered_node comp h l r d).1 ho
    obtain ⟨he, hl, hr⟩ := hok
    obtain ⟨blr, bl, br⟩ := bal
    have el := getHeight_eq_height hl
    have er := getHeight_eq_height hr
    obtain ⟨e, hmem, hxe⟩ := hd
    simp only [inorder, List.mem_append, List.mem_cons] at hmem
    have hex : comp e x = 0 := hc.eq_symm hxe
    rw [AVL_Tree.insert]
    simp only [Option.bind_eq_bind, setLeft_node, setRight_node]
    split_ifs with c1 c2
    · have hel : e ∈ inorder l := by
        rcases hmem with h1 | rfl | h1
        · exact h1
        · omega
        · have := hc.lt_trans c1 (hrd e h1)
          omega
      rw [ihl ol hl bl ⟨e, hel, hxe⟩, Option.some_bind, el, er, ← he]
      exact insertRebalance_noop comp _ x (by simp [el, er]; omega) (by simp [el, er]; omega)
    · have her : e ∈ inorder r := by
        rcases hmem with h1 | rfl | h1
        · have := hc.lt_trans (hld e h1) ((hc.lt_iff d x).2 c2)
          omega
        · omega
        · exact h1
      rw [ihr or hr br ⟨e, her, hxe⟩, Option.some_bind, el, er, ← he]
      exact insertRebalance_noop comp _ x (by simp [el, er]; omega) (by simp [el, er]; omega)
    · rfl

/-- On an AVL tree with correct cached heights, `remove` of an item that compares equal to no
stored element returns the very same tree. -/
theorem remove_absent (comp : α → α → Int) (x : α) :
    ∀ t : BinaryTreeNode α, HeightsOK t → IsBalanced t →
      (∀ e ∈ inorder t, comp x e ≠ 0) → AVL_Tree.remove comp t x = some t := by
  intro t
  induction t with
  | nil => exact fun _ _ _ => rfl
  | node h l r d ihl ihr =>
    intro hok bal habs
    obtain ⟨he, hl, hr⟩ := hok
    obtain ⟨blr, bl, br⟩ := bal
    have el := getHeight_eq_height hl
    have er := getHeight_eq_height hr
    simp only [inorder, List.mem_append, List.mem_cons] at habs
    have hd := habs d (Or.inr (Or.inl rfl))
    rw [AVL_Tree.remove]
    simp only [Option.bind_eq_bind, setLeft_node, setRight_node]
    split_ifs with c1 c2
    · rw [ihl hl bl (fun e he => habs e (Or.inl he)), Option.some_bind, el, er, ← he]
      exact removeRebalance_noop _ (by simp [el, er]; omega) (by simp [el, er]; omega)
    · rw [ihr hr br (fun e he => habs e (Or.inr (Or.inr he))), Option.some_bind, el, er, ← he]
      exact removeRebalance_noop _ (by simp [el, er]; omega) (by simp [el, er]; omega)
    all_goals omega

theorem mem_insertSorted_self (comp : α → α → Int) (x : α) (xs : List α)
    (h : ∀ e ∈ xs, comp x e ≠ 0) : x ∈ insertSorted comp x xs := by
  induction xs with
  | nil => simp [insertSorted]
  | cons a as ih =>
    have ha := h a (List.mem_cons_self a as)
    simp only [insertSorted]
    split_ifs with c1 c2
    · exact List.mem_cons_self _ _
    · exact List.mem_cons_of_mem _ (ih fun e he => h e (List.mem_cons_of_mem a he))
    · omega

/-! ## The insertions of the test -/

theorem compareKeys_of_lt {K P : Type} [LinearOrder K] {a b : K × P} (h : a.1 < b.1) :
    compareKeys a b = -1 := by
  unfold compareKeys
  rw [if_neg (ne_of_lt h), if_neg (not_lt.2 h.le)]

theorem compareKeys_of_gt {K P : Type} [LinearOrder K] {a b : K × P} (h : b.1 < a.1) :
    compareKeys a b = 1 := by
  unfold compareKeys
  rw [if_neg (ne_of_gt h), if_pos h]

theorem compareKeys_of_eq {K P : Type} [LinearOrder K] {a b : K × P} (h : a.1 = b.1) :
    compareKeys a b = 0 := by
  unfold compareKeys
  rw [if_pos h]

theorem testTable3_eq :
    testTable3 = some (node 2 (node 1 nil nil (1, 30)) (node 1 nil nil (3, 10)) (2, 20)) := by
  have c1 : compareKeys ((2 : ℚ), (20 : ℚ)) (3, 10) = -1 := compareKeys_of_lt (by norm_num)
  have c2 : compareKeys ((1 : ℚ), (30 : ℚ)) (3, 10) = -1 := compareKeys_of_lt (by norm_num)
  have c3 : compareKeys ((1 : ℚ), (30 : ℚ)) (2, 20) = -1 := compareKeys_of_lt (by norm_num)
  simp [testTable3, LookupTable1.insert, AVL_Tree.insert, c1, c2, c3, insertRebalance,
    BinaryTreeNode.new, rightRotate_node, leftRotate_node]

theorem testTable6_eq :
    testTable6 =
      some (node 3 (node 2 (node 1 nil nil (1, 30)) (node 1 nil nil (3, 10)) (2, 20))
        (node 2 nil (node 1 nil nil (5, 60)) (4, 40)) (7 / 2, 50)) := by
  have h4 : LookupTable1.insert
      (node 2 (node 1 nil nil ((1 : ℚ), (30 : ℚ))) (node 1 nil nil (3, 10)) (2, 20)) 4 40 =
      some (node 3 (node 1 nil nil (1, 30)) (node 2 nil (node 1 nil nil (4, 40)) (3, 10))
        (2, 20)) := by
    have c1 : compareKeys ((4 : ℚ), (40 : ℚ)) (2, 20) = 1 := compareKeys_of_gt (by norm_num)
    have c2 : compareKeys ((4 : ℚ), (40 : ℚ)) (3, 10) = 1 := compareKeys_of_gt (by norm_num)
    simp [LookupTable1.insert, AVL_Tree.insert, c1, c2, insertRebalance, BinaryTreeNode.new,
      rightRotate_node, leftRotate_node]
  have h5 : LookupTable1.insert
      (node 3 (node 1 nil nil ((1 : ℚ), (30 : ℚ)))
        (node 2 nil (node 1 nil nil (4, 40)) (3, 10)) (2, 20)) (7 / 2) 50 =
      some (node 3 (node 1 nil nil (1, 30))
        (node 2 (node 1 nil nil (3, 10)) (node 1 nil nil (4, 40)) (7 / 2, 50)) (2, 20)) := by
    have c1 : compareKeys ((7 / 2 : ℚ), (50 : ℚ)) (2, 20) = 1 :=
      compareKeys_of_gt (by norm_num)
    have c2 : compareKeys ((7 / 2 : ℚ), (50 : ℚ)) (3, 10) = 1 :=
      compareKeys_of_gt (by norm_num)
    have c3 : compareKeys ((7 / 2 : ℚ), (50 : ℚ)) (4, 40) = -1 :=
      compareKeys_of_lt (by norm_num)
    simp [LookupTable1.insert, AVL_Tree.insert, c1, c2, c3, insertRebalance,
      BinaryTreeNode.new, rightRotate_node, leftRotate_node]
  have h6 : LookupTable1.insert
      (node 3 (node 1 nil nil ((1 : ℚ), (30 : ℚ)))
        (node 2 (node 1 nil nil (3, 10)) (node 1 nil nil (4, 40)) (7 / 2, 50)) (2, 20)) 5 60 =
      some (node 3 (node 2 (node 1 nil nil (1, 30)) (node 1 nil nil (3, 10)) (2, 20))
        (node 2 nil (node 1 nil nil (5, 60)) (4, 40)) (7 / 2, 50)) := by
    have c1 : compareKeys ((5 : ℚ), (60 : ℚ)) (2, 20) = 1 := compareKeys_of_gt (by norm_num)
    have c2 : compareKeys ((5 : ℚ), (60 : ℚ)) (7 / 2, 50) = 1 :=
      compareKeys_of_gt (by norm_num)
    have c3 : compareKeys ((5 : ℚ), (60 : ℚ)) (4, 40) = 1 := compareKeys_of_gt (by norm_num)
    simp [LookupTable1.insert, AVL_Tree.insert, c1, c2, c3, insertRebalance,
      BinaryTreeNode.new, rightRotate_node, leftRotate_node]
  rw [testTable6, testTable3_eq]
  simp only [Option.bind_eq_bind, Option.some_bind, h4, h5, h6]

/-! ## The claims -/

/-- C1, as stated, fails: `exChain` is strictly ordered (and its cached heights are correct),
yet `insert` of key 20 returns no tree.  The item goes to the right of the root, the balance
factor of the root is 3 - 1 = 2, the item compares greater than the left child's key 5, and
`leftRotate` of the left child dereferences its absent right child. -/
theorem insert_unbalanced_fails :
    Ordered compareKeys exChain ∧ HeightsOK exChain ∧
      AVL_Tree.insert compareKeys exChain (20, 0) = none ∧
      ¬ ∃ t1, AVL_Tree.insert compareKeys exChain (20, 0) = some t1 ∧
        Ordered compareKeys t1 := by
  decide

/-- C1 (amended): BST order is preserved by both mutators.  For a total-preorder comparator,
`insert` on a strictly ordered tree that is AVL-balanced with correct cached heights returns a
strictly ordered tree; `remove` on any strictly ordered tree returns a strictly ordered tree;
and every sequence of inserts and removes from the empty tree returns a strictly ordered tree,
in which no two elements compare equal. -/
theorem order_preserved {comp : α → α → Int} (hc : IsTotalCompare comp) :
    (∀ (t : BinaryTreeNode α) (x : α), Ordered comp t → HeightsOK t → IsBalanced t →
      ∃ t1, AVL_Tree.insert comp t x = some t1 ∧ Ordered comp t1) ∧
    (∀ (t : BinaryTreeNode α) (x : α), Ordered comp t →
      ∃ t1, AVL_Tree.remove comp t x = some t1 ∧ Ordered comp t1) ∧
    (∀ ops : List (Op α), ∃ t1, run comp nil ops = some t1 ∧ Ordered comp t1 ∧
      ∀ a ∈ inorder t1, ∀ b ∈ inorder t1, comp a b = 0 → a = b) := by
  refine ⟨?_, ?_, ?_⟩
  · intro t x ho hh hb
    obtain ⟨t1, h1, _⟩ := insert_avl comp x t hh hb
    refine ⟨t1, h1, ?_⟩
    unfold Ordered
    rw [insert_inorder hc x t t1 ho h1]
    exact pairwise_insertSorted hc x _ ho
  · intro t x ho
    obtain ⟨t1, h1⟩ := remove_total comp t x
    refine ⟨t1, h1, ?_⟩
    unfold Ordered
    rw [remove_inorder hc t t1 x ho h1]
    exact List.Pairwise.filter _ ho
  · intro ops
    obtain ⟨t1, h1, ho1, _⟩ :=
      run_avl_ordered hc ops nil (by simp [Ordered, inorder]) trivial trivial
    exact ⟨t1, h1, ho1, ordered_eq_of_comp_eq hc _ ho1⟩

theorem order_preserved_witness :
    (∃ t1, AVL_Tree.insert compareKeys exTree (4, 40) = some t1 ∧ Ordered compareKeys t1) ∧
    (∃ t1, AVL_Tree.remove compareKeys exChain (5, 7) = some t1 ∧ Ordered compareKeys t1) :=
  ⟨(order_preserved compareKeys_total).1 exTree (4, 40) (by decide) (by decide) (by decide),
    (order_preserved compareKeys_total).2.1 exChain (5, 7) (by decide)⟩

/-- C2: AVL balance is preserved by both mutators.  On a tree in which every node's height
attribute is `1 + max(height(left), height(right))` and the heights of the two children differ
by at most one, `insert` and `remove` return a tree with the same two properties; hence so does
every sequence of inserts and removes from the empty tree.  (No order hypothesis is needed.) -/
theorem balance_preserved (comp : α → α → Int) :
    (∀ (t : BinaryTreeNode α) (x : α), HeightsOK t → IsBalanced t →
      ∃ t1, AVL_Tree.insert comp t x = some t1 ∧ HeightsOK t1 ∧ IsBalanced t1) ∧
    (∀ (t : BinaryTreeNode α) (x : α), HeightsOK t → IsBalanced t →
      ∃ t1, AVL_Tree.remove comp t x = some t1 ∧ HeightsOK t1 ∧ IsBalanced t1) ∧
    (∀ ops : List (Op α), ∃ t1, run comp nil ops = some t1 ∧ HeightsOK t1 ∧ IsBalanced t1) := by
  refine ⟨?_, ?_, ?_⟩
  · intro t x hh hb
    obtain ⟨t1, h1, hh1, hb1, _⟩ := insert_avl comp x t hh hb
    exact ⟨t1, h1, hh1, hb1⟩
  · intro t x hh hb
    obtain ⟨t1, h1, hh1, hb1, _⟩ := remove_avl comp t x hh hb
    exact ⟨t1, h1, hh1, hb1⟩
  · intro ops
    exact run_avl comp ops nil trivial trivial

theorem balance_preserved_witness :
    (∃ t1, AVL_Tree.insert compareKeys exTree (4, 40) = some t1 ∧ HeightsOK t1 ∧
      IsBalanced t1) ∧
    (∃ t1, AVL_Tree.remove compareKeys exTree (2, 0) = some t1 ∧ HeightsOK t1 ∧
      IsBalanced t1) :=
  ⟨(balance_preserved compareKeys).1 exTree (4, 40) (by decide) (by decide),
    (balance_preserved compareKeys).2.1 exTree (2, 0) (by decide) (by decide)⟩

/-- C3: the bracketing lookup is exact and tight.  On a strictly ordered tree, for a
total-preorder comparator, `lookup(q)` returns `(lower, upper)` where `lower` is the largest
stored element not greater than `q`, absent iff there is none, and `upper` is the smallest
stored element not less than `q`, absent iff there is none; when both exist
`lower <= q <= upper`; and when `q` compares equal to a stored element, both components are
that element. -/
theorem lookup_brackets {comp : α → α → Int} (hc : IsTotalCompare comp)
    (t : BinaryTreeNode α) (q : α) (ho : Ordered comp t) :
    IsLowerBracket comp (inorder t) q (AVL_Tree.lookup comp t q).1 ∧
    IsUpperBracket comp (inorder t) q (AVL_Tree.lookup comp t q).2 ∧
    ((AVL_Tree.lookup comp t q).1 = none ↔ ∀ a ∈ inorder t, ¬ comp a q ≤ 0) ∧
    ((AVL_Tree.lookup comp t q).2 = none ↔ ∀ a ∈ inorder t, ¬ comp q a ≤ 0) ∧
    (∀ lo up, AVL_Tree.lookup comp t q = (some lo, some up) → comp lo q ≤ 0 ∧ comp q up ≤ 0) ∧
    (∀ e ∈ inorder t, comp q e = 0 → AVL_Tree.lookup comp t q = (some e, some e)) := by
  have hlo := lookup_lower hc t q ho
  have hup := lookup_upper hc t q ho
  refine ⟨hlo, hup, ?_, ?_, ?_, ?_⟩
  · constructor
    · intro h
      rw [h] at hlo
      exact hlo
    · intro h
      cases hl : (AVL_Tree.lookup comp t q).1 with
      | none => rfl
      | some e =>
        rw [hl] at hlo
        exact absurd hlo.2.1 (h e hlo.1)
  · constructor
    · intro h
      rw [h] at hup
      exact hup
    · intro h
      cases hu : (AVL_Tree.lookup comp t q).2 with
      | none => rfl
      | some e =>
        rw [hu] at hup
        exact absurd hup.2.1 (h e hup.1)
  · intro lo up h
    rw [h] at hlo hup
    exact ⟨hlo.2.1, hup.2.1⟩
  · exact fun e he hqe => lookup_exact hc t q ho e he hqe

theorem lookup_brackets_witness :
    IsLowerBracket compareKeys (inorder exTree) (2, 0)
        (AVL_Tree.lookup compareKeys exTree (2, 0)).1 ∧
      AVL_Tree.lookup compareKeys exTree (2, 0) = (some (2, 20), some (2, 20)) :=
  have h := lookup_brackets compareKeys_total exTree (2, 0) (by decide)
  ⟨h.1, h.2.2.2.2.2 (2, 20) (by decide) (by decide)⟩

/-- C4: 1-D interior lookup is piecewise-linear interpolation between the adjacent samples,
in exact arithmetic (keys and values in a linearly ordered field, `toDouble` the identity).
For a strictly ordered table and a query `q` strictly between two stored keys `kl < q < ku`
with no stored key between them, `lookup(q) = vl + t * (vu - vl)` with
`t = (q - kl) / (ku - kl)`. -/
theorem interior_lookup {F : Type} [LinearOrderedField F] (t : BinaryTreeNode (F × F))
    (q kl ku vl vu : F) (ho : Ordered compareKeys t)
    (hl : (kl, vl) ∈ inorder t) (hu : (ku, vu) ∈ inorder t) (h1 : kl < q) (h2 : q < ku)
    (hadj : ∀ e ∈ inorder t, ¬ (kl < e.1 ∧ e.1 < ku)) :
    LookupTable1.lookup id t q = vl + ((q - kl) / (ku - kl)) * (vu - vl) := by
  have e1 := lookup_lower_eq t ho (q, 0) (kl, vl) hl h1.le
    (fun a ha hlt => not_le.1 fun hle => hadj a ha ⟨hlt, lt_of_le_of_lt hle h2⟩)
  have e2 := lookup_upper_eq t ho (q, 0) (ku, vu) hu h2.le
    (fun a ha hlt => not_le.1 fun hle => hadj a ha ⟨lt_of_lt_of_le h1 hle, hlt⟩)
  simp only [LookupTable1.lookup, LookupTable1.interp, e1, e2, LookupTable1.interp_impl,
    if_neg (ne_of_gt h1), if_neg (ne_of_lt h2), id]

/-- C4, on the test: after inserting (3,10), (2,20), (1,30) the table is root 2 with children 1
and 3, `lookup(1.5) = 25` and `lookup(2.5) = 15`. -/
theorem interior_lookup_witness :
    ∃ t, testTable3 = some t ∧ LookupTable1.lookup id t (3 / 2) = 25 ∧
      LookupTable1.lookup id t (5 / 2) = 15 := by
  have ht := testTable3_eq
  have ho : Ordered compareKeys
      (node 2 (node 1 nil nil ((1 : ℚ), (30 : ℚ))) (node 1 nil nil (3, 10)) (2, 20)) := by
    norm_num [Ordered, inorder, compareKeys]
  refine ⟨_, ht, ?_, ?_⟩
  · rw [interior_lookup _ (3 / 2) 1 2 30 20 ho (by simp [inorder]) (by simp [inorder])
      (by norm_num) (by norm_num) (by
        intro e he
        simp only [inorder, List.nil_append, List.cons_append, List.mem_cons, List.mem_nil_iff,
          or_false] at he
        rcases he with rfl | rfl | rfl <;> norm_num)]
    norm_num
  · rw [interior_lookup _ (5 / 2) 2 3 20 10 ho (by simp [inorder]) (by simp [inorder])
      (by norm_num) (by norm_num) (by
        intro e he
        simp only [inorder, List.nil_append, List.cons_append, List.mem_cons, List.mem_nil_iff,
          or_false] at he
        rcases he with rfl | rfl | rfl <;> norm_num)]
    norm_num

/-- C5: interpolation is exact at the samples.  For a strictly ordered 1-D table and a stored
entry `(k, v)`, `lookup(k)` returns `v`: the tree lookup returns that entry on both sides and
`interp_impl` takes its first (exact-match) branch, whatever the division and the conversion
`toDouble` are. -/
theorem sample_exact {K V : Type} [LinearOrder K] [Sub K] [Div K] [Zero K] [Zero V] [Add V]
    [Sub V] [Mul V] (toDouble : K → V) (t : BinaryTreeNode (K × V))
    (ho : Ordered compareKeys t) (k : K) (v : V) (hm : (k, v) ∈ inorder t) :
    LookupTable1.lookup toDouble t k = v ∧
      AVL_Tree.lookup compareKeys t (k, 0) = (some (k, v), some (k, v)) ∧
      LookupTable1.interp_impl toDouble (k, v) (k, v) (k, 0) = (k, v) :=
  have h := lookup_sample toDouble t ho k v hm
  ⟨h.2.2, h.1, h.2.1⟩

/-- C5, on the test: after the six inserts the table is root 3.5 with left child 2 (children
1 and 3) and right child 4 (right child 5), and the lookups of 1, 2, 3, 3.5, 4, 5 return
30, 20, 10, 50, 40, 60. -/
theorem sample_exact_witness :
    ∃ t, testTable6 = some t ∧ LookupTable1.lookup id t 1 = 30 ∧
      LookupTable1.lookup id t 2 = 20 ∧ LookupTable1.lookup id t 3 = 10 ∧
      LookupTable1.lookup id t (7 / 2) = 50 ∧ LookupTable1.lookup id t 4 = 40 ∧
      LookupTable1.lookup id t 5 = 60 := by
  have ht := testTable6_eq
  have ho : Ordered compareKeys
      (node 3 (node 2 (node 1 nil nil ((1 : ℚ), (30 : ℚ))) (node 1 nil nil (3, 10)) (2, 20))
        (node 2 nil (node 1 nil nil (5, 60)) (4, 40)) (7 / 2, 50)) := by
    norm_num [Ordered, inorder, compareKeys]
  exact ⟨_, ht, (sample_exact id _ ho 1 30 (by simp [inorder])).1,
    (sample_exact id _ ho 2 20 (by simp [inorder])).1,
    (sample_exact id _ ho 3 10 (by simp [inorder])).1,
    (sample_exact id _ ho (7 / 2) 50 (by simp [inorder])).1,
    (sample_exact id _ ho 4 40 (by simp [inorder])).1,
    (sample_exact id _ ho 5 60 (by simp [inorder])).1⟩

/-- C6: flat extrapolation outside the stored range.  For a strictly ordered 1-D table, a
query below the smallest stored key returns the value stored at the smallest key, and a query
above the largest stored key returns the value stored at the largest key; `lookup` is a total
function and the result does not depend on the division or on `toDouble`. -/
theorem flat_extrapolation {K V : Type} [LinearOrder K] [Sub K] [Div K] [Zero K] [Zero V]
    [Add V] [Sub V] [Mul V] (toDouble : K → V) (t : BinaryTreeNode (K × V))
    (ho : Ordered compareKeys t) (k : K) (v : V) (hm : (k, v) ∈ inorder t) (q : K) :
    ((∀ e ∈ inorder t, k ≤ e.1) → q < k → LookupTable1.lookup toDouble t q = v) ∧
    ((∀ e ∈ inorder t, e.1 ≤ k) → k < q → LookupTable1.lookup toDouble t q = v) :=
  ⟨fun hmin hq => (lookup_below toDouble t ho k v hm hmin q hq).2,
    fun hmax hq => (lookup_above toDouble t ho k v hm hmax q hq).2⟩

theorem flat_extrapolation_witness :
    LookupTable1.lookup id exTree 0 = 30 ∧ LookupTable1.lookup id exTree 7 = 10 :=
  ⟨(flat_extrapolation id exTree (by decide) 1 30 (by decide) 0).1 (by decide) (by decide),
    (flat_extrapolation id exTree (by decide) 3 10 (by decide) 7).2 (by decide) (by decide)⟩

/-- C7: lookup in an empty table returns the value type's default.  On the table with no
entries the bracketing lookup returns both sides absent and `lookup` returns `ValueT{}`, that
is `0`, for every query: in the 1-D table, and in the table of any dimension `d + 2`. -/
theorem empty_lookup {K V : Type} [LinearOrder K] [Sub K] [Div K] [Zero K] [Zero V] [Add V]
    [Sub V] [Mul V] (toDouble : K → V)
    (ptrToValue : (d : Nat) → Option (LookupTableRoot K V d) → V)
    (vecToValue : List V → V) (keyToPoint : (d : Nat) → K → (Fin (d + 2) → K)) :
    (∀ q : K, AVL_Tree.lookup compareKeys (LookupTable1.new : BinaryTreeNode (K × V)) (q, 0) =
        (none, none) ∧ LookupTable1.lookup toDouble LookupTable1.new q = 0) ∧
    (∀ (d : Nat) (input : Fin (d + 2) → K),
      AVL_Tree.lookup (α := K × Option (LookupTableRoot K V d)) compareKeys
          (LookupTable.new K V d) (input 0, none) = (none, none) ∧
        LookupTable.lookup toDouble ptrToValue vecToValue keyToPoint d (LookupTable.new K V d)
          input = some 0) := by
  constructor
  · intro q
    exact ⟨rfl, rfl⟩
  · intro d input
    refine ⟨rfl, ?_⟩
    cases d <;> rfl

/-- C8: a duplicate insert is a silent no-op that keeps the original entry.  On a strictly
ordered AVL tree with correct cached heights, `insert` of an item that compares equal to a
stored element returns the identical tree (same shape, cached heights and stored elements, no
rotation).  Consequently, in a 1-D table, `insert(k, v1)` followed by `insert(k, v2)` leaves
the table as it was after the first insert, and `lookup(k) = v1` when the first insert is the
one that stored the key `k`. -/
theorem duplicate_insert {comp : α → α → Int} (hc : IsTotalCompare comp)
    {K V : Type} [LinearOrder K] [Sub K] [Div K] [Zero K] [Zero V] [Add V] [Sub V] [Mul V]
    (toDouble : K → V) :
    (∀ (t : BinaryTreeNode α) (x : α), Ordered comp t → HeightsOK t → IsBalanced t →
      (∃ e ∈ inorder t, comp x e = 0) → AVL_Tree.insert comp t x = some t) ∧
    (∀ (t : BinaryTreeNode (K × V)) (k : K) (v1 v2 : V), Ordered compareKeys t →
      HeightsOK t → IsBalanced t →
      ∃ t1, LookupTable1.insert t k v1 = some t1 ∧ LookupTable1.insert t1 k v2 = some t1 ∧
        ((∀ e ∈ inorder t, e.1 ≠ k) → LookupTable1.lookup toDouble t1 k = v1)) := by
  refine ⟨fun t x ho hh hb hd => insert_duplicate hc x t ho hh hb hd, ?_⟩
  intro t k v1 v2 ho hh hb
  obtain ⟨t1, h1, hh1, hb1, _⟩ := insert_avl compareKeys (k, v1) t hh hb
  have hin := insert_inorder compareKeys_total (k, v1) t t1 ho h1
  have ho1 : Ordered compareKeys t1 := by
    unfold Ordered
    rw [hin]
    exact pairwise_insertSorted compareKeys_total _ _ ho
  by_cases hfresh : ∀ e ∈ inorder t, e.1 ≠ k
  · have hm : (k, v1) ∈ inorder t1 := by
      rw [hin]
      refine mem_insertSorted_self compareKeys (k, v1) _ fun e he h0 => ?_
      exact hfresh e he ((compareKeys_eq _ _).1 h0).symm
    refine ⟨t1, h1, ?_, fun _ => (lookup_sample toDouble t1 ho1 k v1 hm).2.2⟩
    exact insert_duplicate compareKeys_total (k, v2) t1 ho1 hh1 hb1
      ⟨(k, v1), hm, (compareKeys_eq _ _).2 rfl⟩
  · have hstored : ∃ e ∈ inorder t, e.1 = k := by
      by_contra hcon
      exact hfresh fun e he hk => hcon ⟨e, he, hk⟩
    obtain ⟨e, he, hk⟩ := hstored
    have hsame : t1 = t := by
      have := insert_duplicate compareKeys_total (k, v1) t ho hh hb
        ⟨e, he, (compareKeys_eq _ _).2 hk.symm⟩
      rw [this] at h1
      exact (Option.some.inj h1).symm
    subst hsame
    refine ⟨t1, h1, ?_, fun hf => absurd hk (hf e he)⟩
    exact insert_duplicate compareKeys_total (k, v2) t1 ho hh hb
      ⟨e, he, (compareKeys_eq _ _).2 hk.symm⟩

theorem duplicate_insert_witness :
    AVL_Tree.insert compareKeys exTree (3, 77) = some exTree ∧
      ∃ t1, LookupTable1.insert exTree 4 40 = some t1 ∧
        LookupTable1.insert t1 4 41 = some t1 ∧ LookupTable1.lookup id t1 4 = 40 :=
  have h := duplicate_insert
    (compareKeys_total : IsTotalCompare (compareKeys : ℤ × ℤ → ℤ × ℤ → Int)) (K := ℤ) (V := ℤ) id
  ⟨h.1 exTree (3, 77) (by decide) (by decide) (by decide) ⟨(3, 10), by decide, by decide⟩,
    (h.2 exTree 4 40 41 (by decide) (by decide) (by decide)).imp fun _ h1 =>
      ⟨h1.1, h1.2.1, h1.2.2 (by decide)⟩⟩

/-- C9: removing an absent key leaves the structure unchanged.  On an AVL tree with correct
cached heights, `remove` of an item that compares equal to no stored element returns the
identical tree (same shape, cached heights and stored elements, no rotation). -/
theorem remove_absent_noop (comp : α → α → Int) (t : BinaryTreeNode α) (x : α)
    (hh : HeightsOK t) (hb : IsBalanced t) (habs : ∀ e ∈ inorder t, comp x e ≠ 0) :
    AVL_Tree.remove comp t x = some t :=
  remove_absent comp x t hh hb habs

theorem remove_absent_noop_witness :
    AVL_Tree.remove compareKeys exTree (7, 0) = some exTree :=
  remove_absent_noop compareKeys exTree (7, 0) (by decide) (by decide) (by decide)

/-- C10: removal is keyed and removes exactly one entry.  For a strictly ordered table that
stores `(k, v)` and any payload `v1`, `remove(k, v1)` returns a table whose in-order sequence is
the in-order sequence before with the single entry `(k, v)` taken out; all other entries keep
their key, payload and position. -/
theorem remove_keyed {K V : Type} [LinearOrder K] (t : BinaryTreeNode (K × V))
    (ho : Ordered compareKeys t) (k : K) (v v1 : V) (hm : (k, v) ∈ inorder t) :
    ∃ t1, LookupTable1.remove t k v1 = some t1 ∧
      ∃ l1 l2, inorder t = l1 ++ (k, v) :: l2 ∧ inorder t1 = l1 ++ l2 := by
  obtain ⟨t1, h1⟩ := remove_total compareKeys t (k, v1)
  refine ⟨t1, h1, ?_⟩
  obtain ⟨l1, l2, hsplit⟩ := List.append_of_mem hm
  refine ⟨l1, l2, hsplit, ?_⟩
  have hp : (l1 ++ (k, v) :: l2).Pairwise (fun a b => compareKeys a b < 0) := by
    rw [← hsplit]
    exact ho
  rw [List.pairwise_append, List.pairwise_cons] at hp
  obtain ⟨_, ⟨h2, _⟩, h3⟩ := hp
  rw [remove_inorder compareKeys_total t t1 (k, v1) ho h1, hsplit, List.filter_append,
    List.filter_cons, if_neg (by simp [compareKeys_of_eq]), List.filter_eq_self.2,
    List.filter_eq_self.2]
  · intro b hb
    have := (compareKeys_lt _ _).1 (h2 b hb)
    simp only [ne_eq, decide_eq_true_eq, compareKeys_eq]
    exact ne_of_lt this
  · intro a ha
    have := (compareKeys_lt _ _).1 (h3 a ha (k, v) (List.mem_cons_self _ _))
    simp only [ne_eq, decide_eq_true_eq, compareKeys_eq]
    exact ne_of_gt this

/-- C10, on a node with two children: removing key 2 (with another payload) from the tree
2(1, 3) overwrites the root with its in-order successor `(3, 10)` and keeps `(1, 30)`. -/
theorem remove_keyed_witness :
    ∃ t1, LookupTable1.remove exTree 2 999 = some t1 ∧
      ∃ l1 l2, inorder exTree = l1 ++ (2, 20) :: l2 ∧ inorder t1 = l1 ++ l2 :=
  remove_keyed exTree (by decide) 2 20 999 (by decide)

/-! ## Helper lemmas for interpolation and removal in a table -/

/-- Between two adjacent stored keys the 1-D lookup is the linear interpolation of the two
stored values (exact arithmetic). -/
theorem lookup_interp_between {F : Type} [LinearOrderedField F] (t : BinaryTreeNode (F × F))
    (q kl ku vl vu : F) (ho : Ordered compareKeys t)
    (hl : (kl, vl) ∈ inorder t) (hu : (ku, vu) ∈ inorder t) (h1 : kl < q) (h2 : q < ku)
    (hadj : ∀ e ∈ inorder t, ¬ (kl < e.1 ∧ e.1 < ku)) :
    LookupTable1.lookup id t q = vl + ((q - kl) / (ku - kl)) * (vu - vl) := by
  have e1 := lookup_lower_eq t ho (q, 0) (kl, vl) hl h1.le
    (fun a ha hlt => not_le.1 fun hle => hadj a ha ⟨hlt, lt_of_le_of_lt hle h2⟩)
  have e2 := lookup_upper_eq t ho (q, 0) (ku, vu) hu h2.le
    (fun a ha hlt => not_le.1 fun hle => hadj a ha ⟨lt_of_lt_of_le h1 hle, hlt⟩)
  simp only [LookupTable1.lookup, LookupTable1.interp, e1, e2, LookupTable1.interp_impl,
    if_neg (ne_of_gt h1), if_neg (ne_of_lt h2), id]

/-- After a keyed removal from a strictly ordered table the table is strictly ordered and
stores exactly the entries whose key differs from the removed key. -/
theorem remove_table_inorder {K V : Type} [LinearOrder K] (t t1 : BinaryTreeNode (K × V))
    (ho : Ordered compareKeys t) (k : K) (v1 : V) (h1 : LookupTable1.remove t k v1 = some t1) :
    Ordered compareKeys t1 ∧ ∀ e, e ∈ inorder t1 ↔ e ∈ inorder t ∧ e.1 ≠ k := by
  have hin := remove_inorder compareKeys_total t t1 (k, v1) ho h1
  constructor
  · unfold Ordered
    rw [hin]
    exact List.Pairwise.filter _ ho
  · intro e
    rw [hin, List.mem_filter]
    simp only [ne_eq, decide_eq_true_eq, compareKeys_eq]
    constructor
    · rintro ⟨h2, h3⟩
      exact ⟨h2, fun h => h3 h.symm⟩
    · rintro ⟨h2, h3⟩
      exact ⟨h2, fun h => h3 h.symm⟩

theorem exTreeQ_ordered : Ordered compareKeys exTreeQ := by
  norm_num [exTreeQ, Ordered, inorder, compareKeys]

theorem exTreeQ_inorder : inorder exTreeQ = [(1, 30), (2, 20), (3, 10)] := rfl

/-! ## The removals of the test -/

theorem testTableRemoved3_eq : testTableRemoved3 = some exTreeQ := by
  have h1 : LookupTable1.remove
      (node 3 (node 2 (node 1 nil nil ((1 : ℚ), (30 : ℚ))) (node 1 nil nil (3, 10)) (2, 20))
        (node 2 nil (node 1 nil nil (5, 60)) (4, 40)) (7 / 2, 50)) 5 60 =
      some (node 3 (node 2 (node 1 nil nil (1, 30)) (node 1 nil nil (3, 10)) (2, 20))
        (node 1 nil nil (4, 40)) (7 / 2, 50)) := by
    have c1 : compareKeys ((5 : ℚ), (60 : ℚ)) (7 / 2, 50) = 1 :=
      compareKeys_of_gt (by norm_num)
    have c2 : compareKeys ((5 : ℚ), (60 : ℚ)) (4, 40) = 1 := compareKeys_of_gt (by norm_num)
    have c3 : compareKeys ((5 : ℚ), (60 : ℚ)) (5, 60) = 0 := compareKeys_of_eq rfl
    simp [LookupTable1.remove, AVL_Tree.remove, c1, c2, c3, removeRebalance,
      rightRotate_node, leftRotate_node]
  have h2 : LookupTable1.remove
      (node 3 (node 2 (node 1 nil nil ((1 : ℚ), (30 : ℚ))) (node 1 nil nil (3, 10)) (2, 20))
        (node 1 nil nil (4, 40)) (7 / 2, 50)) (7 / 2) 50 =
      some (node 3 (node 1 nil nil (1, 30))
        (node 2 (node 1 nil nil (3, 10)) nil (4, 40)) (2, 20)) := by
    have c1 : compareKeys ((7 / 2 : ℚ), (50 : ℚ)) (7 / 2, 50) = 0 := compareKeys_of_eq rfl
    have c2 : compareKeys ((4 : ℚ), (40 : ℚ)) (4, 40) = 0 := compareKeys_of_eq rfl
    simp [LookupTable1.remove, AVL_Tree.remove, c1, c2, removeRebalance, successorData,
      rightRotate_node, leftRotate_node]
  have h3 : LookupTable1.remove
      (node 3 (node 1 nil nil ((1 : ℚ), (30 : ℚ)))
        (node 2 (node 1 nil nil (3, 10)) nil (4, 40)) (2, 20)) 4 40 =
      some (node 2 (node 1 nil nil (1, 30)) (node 1 nil nil (3, 10)) (2, 20)) := by
    have c1 : compareKeys ((4 : ℚ), (40 : ℚ)) (2, 20) = 1 := compareKeys_of_gt (by norm_num)
    have c2 : compareKeys ((4 : ℚ), (40 : ℚ)) (4, 40) = 0 := compareKeys_of_eq rfl
    simp [LookupTable1.remove, AVL_Tree.remove, c1, c2, removeRebalance,
      rightRotate_node, leftRotate_node]
  rw [testTableRemoved3, testTable6_eq]
  simp only [Option.bind_eq_bind, Option.some_bind, h1, h2, h3, exTreeQ]

theorem testTableRemoved4_eq :
    testTableRemoved4 = some (node 2 (node 1 nil nil (1, 30)) nil (3, 10)) := by
  have c1 : compareKeys ((2 : ℚ), (20 : ℚ)) (2, 20) = 0 := compareKeys_of_eq rfl
  have c2 : compareKeys ((3 : ℚ), (10 : ℚ)) (3, 10) = 0 := compareKeys_of_eq rfl
  rw [testTableRemoved4, testTableRemoved3_eq]
  simp [exTreeQ, LookupTable1.remove, AVL_Tree.remove, c1, c2, removeRebalance, successorData,
    rightRotate_node, leftRotate_node]

/-! ## Claims C11 to C20 -/

/-- C11: the lookup of a removed key interpolates between its new neighbours.  For a strictly
ordered 1-D table (exact arithmetic) that stores the key `k`, the nearest stored key `kp` below
it with value `vp` and the nearest stored key `ks` above it with value `vs`, `remove(k, _)`
returns a table on which `lookup(k) = vp + ((k - kp) / (ks - kp)) * (vs - vp)`, whatever value
was stored at `k` and whatever payload the removal carries. -/
theorem removed_key_lookup {F : Type} [LinearOrderedField F] (t : BinaryTreeNode (F × F))
    (ho : Ordered compareKeys t) (k kp ks v vp vs v1 : F)
    (_hk : (k, v) ∈ inorder t) (hp : (kp, vp) ∈ inorder t) (hs : (ks, vs) ∈ inorder t)
    (h1 : kp < k) (h2 : k < ks)
    (hadjp : ∀ e ∈ inorder t, ¬ (kp < e.1 ∧ e.1 < k))
    (hadjs : ∀ e ∈ inorder t, ¬ (k < e.1 ∧ e.1 < ks)) :
    ∃ t1, LookupTable1.remove t k v1 = some t1 ∧
      LookupTable1.lookup id t1 k = vp + ((k - kp) / (ks - kp)) * (vs - vp) := by
  obtain ⟨t1, hr⟩ := remove_total compareKeys t (k, v1)
  obtain ⟨ho1, hmem⟩ := remove_table_inorder t t1 ho k v1 hr
  refine ⟨t1, hr, ?_⟩
  apply lookup_interp_between t1 k kp ks vp vs ho1 ((hmem _).2 ⟨hp, ne_of_lt h1⟩)
    ((hmem _).2 ⟨hs, ne_of_gt h2⟩) h1 h2
  intro e he hcon
  obtain ⟨he1, he2⟩ := (hmem e).1 he
  rcases lt_trichotomy e.1 k with h | h | h
  · exact hadjp e he1 ⟨hcon.1, h⟩
  · exact he2 h
  · exact hadjs e he1 ⟨h, hcon.2⟩

/-- C11, on the test: after the three removals the table holds (1,30), (2,20), (3,10), and
after `remove(2, 20)` the lookup of 2 returns 20. -/
theorem removed_key_lookup_witness :
    ∃ t, testTableRemoved3 = some t ∧
      ∃ t1, LookupTable1.remove t 2 20 = some t1 ∧ LookupTable1.lookup id t1 2 = 20 := by
  obtain ⟨t1, h1, h2⟩ := removed_key_lookup exTreeQ exTreeQ_ordered 2 1 3 20 30 10 20
    (by simp [exTreeQ_inorder]) (by simp [exTreeQ_inorder]) (by simp [exTreeQ_inorder])
    (by norm_num) (by norm_num)
    (by
      intro e he
      simp only [exTreeQ_inorder, List.mem_cons, List.mem_nil_iff, or_false] at he
      rcases he with rfl | rfl | rfl <;> norm_num)
    (by
      intro e he
      simp only [exTreeQ_inorder, List.mem_cons, List.mem_nil_iff, or_false] at he
      rcases he with rfl | rfl | rfl <;> norm_num)
  refine ⟨exTreeQ, testTableRemoved3_eq, t1, h1, ?_⟩
  rw [h2]
  norm_num

/-- The `lookup` of the primary template, written with `subLookup` for the calls through the
sub-table pointers. -/
theorem lookup_nd_unfold {K V : Type} [LinearOrder K] [Sub K] [Div K] [Zero K] [Zero V]
    [Add V] [Sub V] [Mul V] (toDouble : K → V)
    (ptrToValue : (d : Nat) → Option (LookupTableRoot K V d) → V)
    (vecToValue : List V → V) (keyToPoint : (d : Nat) → K → (Fin (d + 2) → K)) (d : Nat)
    (root_ : BinaryTreeNode (K × Option (LookupTableRoot K V d))) (input : Fin (d + 2) → K) :
    LookupTable.lookup toDouble ptrToValue vecToValue keyToPoint d root_ input =
      (LookupTable.interp toDouble (ptrToValue d)
        (fun p => LookupTable.subLookup toDouble ptrToValue vecToValue keyToPoint d p
          (List.ofFn (Fin.tail input)))
        (AVL_Tree.lookup compareKeys root_ (input 0, none)) (input 0)).map Prod.snd := by
  cases d with
  | zero =>
    rw [LookupTable.lookup]
    congr 2
    funext p
    cases p <;> rfl
  | succ d =>
    rw [LookupTable.lookup]
    congr 2
    funext p
    cases p <;> rfl

/-- When only one bracket exists, the `lookup` of the primary template returns the conversion
of that entry's sub-table pointer; the remaining coordinates are not used. -/
theorem lookup_nd_one_sided {K V : Type} [LinearOrder K] [Sub K] [Div K] [Zero K] [Zero V]
    [Add V] [Sub V] [Mul V] (toDouble : K → V)
    (ptrToValue : (d : Nat) → Option (LookupTableRoot K V d) → V)
    (vecToValue : List V → V) (keyToPoint : (d : Nat) → K → (Fin (d + 2) → K)) (d : Nat)
    (root_ : BinaryTreeNode (K × Option (LookupTableRoot K V d))) (point : Fin (d + 2) → K)
    (ho : Ordered compareKeys root_) (k : K) (p : Option (LookupTableRoot K V d))
    (hm : (k, p) ∈ inorder root_) :
    ((∀ e ∈ inorder root_, k ≤ e.1) → point 0 < k →
      LookupTable.lookup toDouble ptrToValue vecToValue keyToPoint d root_ point =
        some (ptrToValue d p)) ∧
    ((∀ e ∈ inorder root_, e.1 ≤ k) → k < point 0 →
      LookupTable.lookup toDouble ptrToValue vecToValue keyToPoint d root_ point =
        some (ptrToValue d p)) := by
  constructor
  · intro hmin hq
    have e1 := lookup_lower_none root_ ho (point 0, none)
      (fun a ha => lt_of_lt_of_le hq (hmin a ha))
    have e2 := lookup_upper_eq root_ ho (point 0, none) (k, p) hm hq.le
      (fun a ha hlt => absurd (hmin a ha) (not_le.2 hlt))
    rw [lookup_nd_unfold]
    simp only [LookupTable.interp, e1, e2, Option.map_some']
  · intro hmax hq
    have e1 := lookup_upper_none root_ ho (point 0, none)
      (fun a ha => lt_of_le_of_lt (hmax a ha) hq)
    have e2 := lookup_lower_eq root_ ho (point 0, none) (k, p) hm hq.le
      (fun a ha hlt => absurd (hmax a ha) (not_le.2 hlt))
    rw [lookup_nd_unfold]
    simp only [LookupTable.interp, e1, e2, Option.map_some']

/-- Between two adjacent stored outer keys, the `lookup` of the primary template blends what
the two sub-table calls return after their conversion to `ValueT` (exact arithmetic). -/
theorem lookup_nd_between {F : Type} [LinearOrderedField F]
    (ptrToValue : (d : Nat) → Option (LookupTableRoot F F d) → F)
    (vecToValue : List F → F) (keyToPoint : (d : Nat) → F → (Fin (d + 2) → F)) (d : Nat)
    (root_ : BinaryTreeNode (F × Option (LookupTableRoot F F d))) (point : Fin (d + 2) → F)
    (ho : Ordered compareKeys root_) (kl ku : F) (pl pu : Option (LookupTableRoot F F d))
    (hl : (kl, pl) ∈ inorder root_) (hu : (ku, pu) ∈ inorder root_)
    (h1 : kl < point 0) (h2 : point 0 < ku)
    (hadj : ∀ e ∈ inorder root_, ¬ (kl < e.1 ∧ e.1 < ku)) (lowerVal upperVal : F)
    (hlv : LookupTable.subLookup id ptrToValue vecToValue keyToPoint d pl
      (List.ofFn (Fin.tail point)) = some lowerVal)
    (huv : LookupTable.subLookup id ptrToValue vecToValue keyToPoint d pu
      (List.ofFn (Fin.tail point)) = some upperVal) :
    LookupTable.lookup id ptrToValue vecToValue keyToPoint d root_ point =
      some (lowerVal + ((point 0 - kl) / (ku - kl)) * (upperVal - lowerVal)) := by
  have e1 := lookup_lower_eq root_ ho (point 0, none) (kl, pl) hl h1.le
    (fun a ha hlt => not_le.1 fun hle => hadj a ha ⟨hlt, lt_of_le_of_lt hle h2⟩)
  have e2 := lookup_upper_eq root_ ho (point 0, none) (ku, pu) hu h2.le
    (fun a ha hlt => not_le.1 fun hle => hadj a ha ⟨lt_of_lt_of_le h1 hle, hlt⟩)
  rw [lookup_nd_unfold]
  simp only [LookupTable.interp, e1, e2, LookupTable.interp_impl, if_neg (ne_of_gt h1),
    if_neg (ne_of_lt h2), hlv, huv, id, Option.bind_eq_bind, Option.some_bind, Option.pure_def,
    Option.map_some']

theorem exSub100_lookup : LookupTable1.lookup id exSub100 7 = 100 := by
  have c1 : compareKeys ((7 : ℚ), (0 : ℚ)) (0, 100) = 1 := compareKeys_of_gt (by norm_num)
  simp [exSub100, LookupTable1.lookup, AVL_Tree.lookup, lookupLoop, c1, LookupTable1.interp]

theorem exSub200_lookup : LookupTable1.lookup id exSub200 7 = 200 := by
  have c1 : compareKeys ((7 : ℚ), (0 : ℚ)) (0, 200) = 1 := compareKeys_of_gt (by norm_num)
  simp [exSub200, LookupTable1.lookup, AVL_Tree.lookup, lookupLoop, c1, LookupTable1.interp]

/-- C13 fails on the code: in the 2-D table `exTable2D` (one outer key 5, sub-table `exTree`)
the points (0, 1) and (0, 3) lie below the only outer key.  The sub-table's lookups of 1 and 3
are 30 and 10, but `lookup` returns for both points the same value, the conversion of the
sub-table pointer: `interp` copies `*(ref.second)` and never calls the sub-table's `lookup`. -/
theorem nd_clamp_ignores_point
    (ptrToValue : (d : Nat) → Option (LookupTableRoot ℤ ℤ d) → ℤ)
    (vecToValue : List ℤ → ℤ) (keyToPoint : (d : Nat) → ℤ → (Fin (d + 2) → ℤ)) :
    LookupTable.lookup id ptrToValue vecToValue keyToPoint 0 exTable2D ![0, 1] =
      some (ptrToValue 0 (some exTree)) ∧
    LookupTable.lookup id ptrToValue vecToValue keyToPoint 0 exTable2D ![0, 3] =
      some (ptrToValue 0 (some exTree)) ∧
    LookupTable1.lookup id exTree 1 = 30 ∧ LookupTable1.lookup id exTree 3 = 10 ∧
    ¬ (LookupTable.lookup id ptrToValue vecToValue keyToPoint 0 exTable2D ![0, 1] =
          some (LookupTable1.lookup id exTree 1) ∧
        LookupTable.lookup id ptrToValue vecToValue keyToPoint 0 exTable2D ![0, 3] =
          some (LookupTable1.lookup id exTree 3)) := by
  have h1 : LookupTable.lookup id ptrToValue vecToValue keyToPoint 0 exTable2D ![0, 1] =
      some (ptrToValue 0 (some exTree)) := rfl
  have h2 : LookupTable.lookup id ptrToValue vecToValue keyToPoint 0 exTable2D ![0, 3] =
      some (ptrToValue 0 (some exTree)) := rfl
  have h3 : LookupTable1.lookup id exTree 1 = 30 := by decide
  have h4 : LookupTable1.lookup id exTree 3 = 10 := by decide
  refine ⟨h1, h2, h3, h4, ?_⟩
  rw [h1, h2, h3, h4]
  rintro ⟨h5, h6⟩
  rw [h5] at h6
  exact absurd h6 (by decide)

/-- C14: rotations preserve the in-order sequence.  For every node `y` with a left child,
`rightRotate(y)` returns a tree with the in-order traversal of the subtree rooted at `y`; for
every node `x` with a right child, `leftRotate(x)` returns a tree with the in-order traversal
of the subtree rooted at `x`. -/
theorem rotations_preserve_inorder :
    (∀ (h hx : Nat) (a b r : BinaryTreeNode α) (d e : α),
      ∃ t, rightRotate (node h (node hx a b e) r d) = some t ∧
        inorder t = inorder (node h (node hx a b e) r d)) ∧
    (∀ (h hy : Nat) (l a b : BinaryTreeNode α) (d e : α),
      ∃ t, leftRotate (node h l (node hy a b e) d) = some t ∧
        inorder t = inorder (node h l (node hy a b e) d)) := by
  constructor
  · intro h hx a b r d e
    exact ⟨_, rightRotate_node h hx a b r d e,
      rightRotate_inorder (rightRotate_node h hx a b r d e)⟩
  · intro h hy l a b d e
    exact ⟨_, leftRotate_node h hy l a b d e,
      leftRotate_inorder (leftRotate_node h hy l a b d e)⟩

/-- In a tree with correct cached heights that is balanced, every node is the root of such a
tree. -/
theorem avl_nodes {t : BinaryTreeNode α} (hh : HeightsOK t) (hb : IsBalanced t) :
    ∀ s ∈ nodes t, HeightsOK s ∧ IsBalanced s := by
  induction t with
  | nil => intro s hs; simp [nodes] at hs
  | node hn l r d ihl ihr =>
    intro s hs
    simp only [nodes, List.mem_cons, List.mem_append] at hs
    rcases hs with rfl | hs | hs
    · exact ⟨hh, hb⟩
    · exact ihl hh.2.1 hb.2.1 s hs
    · exact ihr hh.2.2 hb.2.2 s hs

/-- In a tree with correct cached heights, the cached height of every node is computed from
the cached heights of its children and is the real height of its subtree. -/
theorem heightsOK_nodes {t : BinaryTreeNode α} (hh : HeightsOK t) :
    ∀ (h : Nat) (l r : BinaryTreeNode α) (d : α), node h l r d ∈ nodes t →
      h = 1 + max (getHeight l) (getHeight r) ∧ h = height (node h l r d) := by
  induction t with
  | nil => intro h l r d hs; simp [nodes] at hs
  | node hn a b e iha ihb =>
    intro h l r d hs
    obtain ⟨he, ha, hb⟩ := hh
    simp only [nodes, List.mem_cons, List.mem_append] at hs
    rcases hs with hs | hs | hs
    · cases hs
      exact ⟨by rw [getHeight_eq_height ha, getHeight_eq_height hb]; exact he, he⟩
    · exact iha ha h l r d hs
    · exact ihb hb h l r d hs

/-- C15: the cached height is always the true height.  Every sequence of inserts and removes
from the empty tree returns a tree in which every node's cached `height_` is
`1 + max(getHeight(left), getHeight(right))` (0 for an absent child) and equals the real
height of the subtree rooted at that node. -/
theorem cached_height_true (comp : α → α → Int) (ops : List (Op α)) :
    ∃ t, run comp nil ops = some t ∧ HeightsOK t ∧ getHeight t = height t ∧
      ∀ (h : Nat) (l r : BinaryTreeNode α) (d : α), node h l r d ∈ nodes t →
        h = 1 + max (getHeight l) (getHeight r) ∧ h = height (node h l r d) := by
  obtain ⟨t, h1, h2, _⟩ := run_avl comp ops nil trivial trivial
  exact ⟨t, h1, h2, getHeight_eq_height h2, heightsOK_nodes h2⟩

theorem testTable5_eq :
    testTable5 =
      some (node 3 (node 1 nil nil (1, 30))
        (node 2 (node 1 nil nil (3, 10)) (node 1 nil nil (4, 40)) (7 / 2, 50)) (2, 20)) := by
  have h4 : LookupTable1.insert
      (node 2 (node 1 nil nil ((1 : ℚ), (30 : ℚ))) (node 1 nil nil (3, 10)) (2, 20)) 4 40 =
      some (node 3 (node 1 nil nil (1, 30)) (node 2 nil (node 1 nil nil (4, 40)) (3, 10))
        (2, 20)) := by
    have c1 : compareKeys ((4 : ℚ), (40 : ℚ)) (2, 20) = 1 := compareKeys_of_gt (by norm_num)
    have c2 : compareKeys ((4 : ℚ), (40 : ℚ)) (3, 10) = 1 := compareKeys_of_gt (by norm_num)
    simp [LookupTable1.insert, AVL_Tree.insert, c1, c2, insertRebalance, BinaryTreeNode.new,
      rightRotate_node, leftRotate_node]
  have h5 : LookupTable1.insert
      (node 3 (node 1 nil nil ((1 : ℚ), (30 : ℚ)))
        (node 2 nil (node 1 nil nil (4, 40)) (3, 10)) (2, 20)) (7 / 2) 50 =
      some (node 3 (node 1 nil nil (1, 30))
        (node 2 (node 1 nil nil (3, 10)) (node 1 nil nil (4, 40)) (7 / 2, 50)) (2, 20)) := by
    have c1 : compareKeys ((7 / 2 : ℚ), (50 : ℚ)) (2, 20) = 1 :=
      compareKeys_of_gt (by norm_num)
    have c2 : compareKeys ((7 / 2 : ℚ), (50 : ℚ)) (3, 10) = 1 :=
      compareKeys_of_gt (by norm_num)
    have c3 : compareKeys ((7 / 2 : ℚ), (50 : ℚ)) (4, 40) = -1 :=
      compareKeys_of_lt (by norm_num)
    simp [LookupTable1.insert, AVL_Tree.insert, c1, c2, c3, insertRebalance,
      BinaryTreeNode.new, rightRotate_node, leftRotate_node]
  rw [testTable5, testTable3_eq]
  simp only [Option.bind_eq_bind, Option.some_bind, h4, h5]

/-- C16: the insertion scenario of the test produces the documented tree shapes.  After the
keys 3, 2, 1: root 2 with children 1 and 3, the right rotation of the left spine 3, 2, 1
(left-left case).  After 4 and 3.5: root 2, left 1, right 3.5 with children 3 and 4, where the
subtree 3.5 is the right rotation of 4 followed by the left rotation of 3 (right-left case).
After 5: root 3.5 with left child 2 (children 1 and 3) and right child 4 (no left child, right
child 5), the left rotation of the root 2 (right-right case). -/
theorem test_insert_shapes :
    testTable3 = some (node 2 (node 1 nil nil (1, 30)) (node 1 nil nil (3, 10)) (2, 20)) ∧
    testTable5 =
      some (node 3 (node 1 nil nil (1, 30))
        (node 2 (node 1 nil nil (3, 10)) (node 1 nil nil (4, 40)) (7 / 2, 50)) (2, 20)) ∧
    testTable6 =
      some (node 3 (node 2 (node 1 nil nil (1, 30)) (node 1 nil nil (3, 10)) (2, 20))
        (node 2 nil (node 1 nil nil (5, 60)) (4, 40)) (7 / 2, 50)) ∧
    rightRotate (node 3 (node 2 (node 1 nil nil ((1 : ℚ), (30 : ℚ))) nil (2, 20)) nil (3, 10)) =
      some (node 2 (node 1 nil nil (1, 30)) (node 1 nil nil (3, 10)) (2, 20)) ∧
    rightRotate (node 2 (node 1 nil nil ((7 / 2 : ℚ), (50 : ℚ))) nil (4, 40)) =
      some (node 2 nil (node 1 nil nil (4, 40)) (7 / 2, 50)) ∧
    leftRotate (node 3 nil (node 2 nil (node 1 nil nil ((4 : ℚ), (40 : ℚ))) (7 / 2, 50))
        (3, 10)) =
      some (node 2 (node 1 nil nil (3, 10)) (node 1 nil nil (4, 40)) (7 / 2, 50)) ∧
    leftRotate (node 4 (node 1 nil nil ((1 : ℚ), (30 : ℚ)))
        (node 3 (node 1 nil nil (3, 10)) (node 2 nil (node 1 nil nil (5, 60)) (4, 40))
          (7 / 2, 50)) (2, 20)) =
      some (node 3 (node 2 (node 1 nil nil (1, 30)) (node 1 nil nil (3, 10)) (2, 20))
        (node 2 nil (node 1 nil nil (5, 60)) (4, 40)) (7 / 2, 50)) :=
  ⟨testTable3_eq, testTable5_eq, testTable6_eq, rfl, rfl, rfl, rfl⟩

/-- Placing a fresh item in a strictly increasing list splits the list into the elements less
than the item and the elements greater than it. -/
theorem insertSorted_fresh_split {comp : α → α → Int} (hc : IsTotalCompare comp) (x : α) :
    ∀ xs : List α, xs.Pairwise (fun a b => comp a b < 0) → (∀ e ∈ xs, comp x e ≠ 0) →
      ∃ l1 l2, xs = l1 ++ l2 ∧ insertSorted comp x xs = l1 ++ x :: l2 ∧
        (∀ a ∈ l1, comp a x < 0) ∧ ∀ b ∈ l2, comp x b < 0 := by
  intro xs
  induction xs with
  | nil => exact fun _ _ => ⟨[], [], rfl, rfl, by simp, by simp⟩
  | cons a as ih =>
    intro hp hf
    rw [List.pairwise_cons] at hp
    have ha := hf a (List.mem_cons_self a as)
    simp only [insertSorted]
    split_ifs with c1 c2
    · refine ⟨[], a :: as, rfl, rfl, by simp, ?_⟩
      intro b hb
      rcases List.mem_cons.1 hb with rfl | hb
      · exact c1
      · exact hc.lt_trans c1 (hp.1 b hb)
    · obtain ⟨l1, l2, e1, e2, e3, e4⟩ := ih hp.2 fun e he => hf e (List.mem_cons_of_mem a he)
      refine ⟨a :: l1, l2, by rw [e1]; rfl, by rw [e2]; rfl, ?_, e4⟩
      intro b hb
      rcases List.mem_cons.1 hb with rfl | hb
      · exact (hc.lt_iff b x).2 c2
      · exact e3 b hb
    · omega

/-- C17 (amended): insert of a new key adds exactly that entry.  For a total-preorder
comparator, a strictly ordered tree and an item `x` that compares equal to no stored element:
every tree that `insert` returns has the in-order sequence of the argument with `x` placed at
its sorted position (all earlier entries less than `x`, all later ones greater, every stored
entry kept with its key and payload); and on an AVL-balanced tree with correct cached heights
`insert` does return a tree. -/
theorem insert_new_entry {comp : α → α → Int} (hc : IsTotalCompare comp)
    (t : BinaryTreeNode α) (x : α) (ho : Ordered comp t)
    (hfresh : ∀ e ∈ inorder t, comp x e ≠ 0) :
    (∀ t1, AVL_Tree.insert comp t x = some t1 →
      ∃ l1 l2, inorder t = l1 ++ l2 ∧ inorder t1 = l1 ++ x :: l2 ∧
        (∀ a ∈ l1, comp a x < 0) ∧ ∀ b ∈ l2, comp x b < 0) ∧
    (HeightsOK t → IsBalanced t → ∃ t1, AVL_Tree.insert comp t x = some t1) := by
  constructor
  · intro t1 h1
    rw [insert_inorder hc x t t1 ho h1]
    exact insertSorted_fresh_split hc x _ ho hfresh
  · intro hh hb
    obtain ⟨t1, h1, _⟩ := insert_avl comp x t hh hb
    exact ⟨t1, h1⟩

theorem insert_new_entry_witness :
    ∃ t1, AVL_Tree.insert compareKeys exTree (4, 40) = some t1 ∧
      ∃ l1 l2, inorder exTree = l1 ++ l2 ∧ inorder t1 = l1 ++ (4, 40) :: l2 ∧
        (∀ a ∈ l1, compareKeys a (4, 40) < 0) ∧ ∀ b ∈ l2, compareKeys (4, 40) b < 0 :=
  have h := insert_new_entry compareKeys_total exTree (4, 40) (by decide) (by decide)
  (h.2 (by decide) (by decide)).imp fun t1 h1 => ⟨h1, h.1 t1 h1⟩

/-- C17, as stated, fails: `exSpine` is strictly ordered (with correct cached heights) and stores
no key 0, yet `insert` of key 0 returns no tree.  The item goes to the left of the root, the
balance factor of the root is 1 - 3 = -2, the item compares less than the right child's key 3,
and `rightRotate` of the right child dereferences its absent left child. -/
theorem insert_new_unbalanced_fails :
    Ordered compareKeys exSpine ∧ HeightsOK exSpine ∧
      (∀ e ∈ inorder exSpine, compareKeys (0, 0) e ≠ 0) ∧
      AVL_Tree.insert compareKeys exSpine (0, 0) = none := by
  decide


theorem wrapInt_of_range (z : Int) (h1 : -2147483648 ≤ z) (h2 : z < 2147483648) :
    wrapInt z = z := by
  unfold wrapInt
  omega

theorem cint_lt_iff (a b : CInt) : a < b ↔ CInt.val a < CInt.val b := Iff.rfl

theorem cint_val_range (a : CInt) : -2147483648 ≤ CInt.val a ∧ CInt.val a < 2147483648 :=
  Subtype.property a

theorem cint_val_sub (a b : CInt) : CInt.val (a - b) = wrapInt (CInt.val a - CInt.val b) := rfl

theorem cint_val_div (a b : CInt) :
    CInt.val (a / b) = wrapInt (Int.tdiv (CInt.val a) (CInt.val b)) := rfl

theorem cint_val_zero : CInt.val (0 : CInt) = 0 := rfl

theorem cint_ext {a b : CInt} (h : CInt.val a = CInt.val b) : a = b := Subtype.ext h

/-- With `int` keys `kl < q < ku` whose difference `ku - kl` does not overflow, the quotient
`(q - kl) / (ku - kl)` of `interp_impl` is 0. -/
theorem cint_quotient_zero (q kl ku : CInt) (h1 : kl < q) (h2 : q < ku)
    (hno : CInt.val ku - CInt.val kl < 2147483648) : (q - kl) / (ku - kl) = 0 := by
  rw [cint_lt_iff] at h1 h2
  have rq := cint_val_range q
  have rl := cint_val_range kl
  have ru := cint_val_range ku
  apply cint_ext
  rw [cint_val_div, cint_val_sub, cint_val_sub, cint_val_zero,
    wrapInt_of_range (CInt.val q - CInt.val kl) (by omega) (by omega),
    wrapInt_of_range (CInt.val ku - CInt.val kl) (by omega) (by omega),
    Int.tdiv_eq_zero_of_lt (by omega) (by omega)]
  rfl

/-- Between two adjacent stored keys the 1-D `lookup` returns the blend of `interp_impl`, with
the weight `toDouble` makes of the `KeyT` quotient. -/
theorem lookup_interp_keyT {K V : Type} [LinearOrder K] [Sub K] [Div K] [Zero K] [Zero V]
    [Add V] [Sub V] [Mul V] (toDouble : K → V) (t : BinaryTreeNode (K × V))
    (ho : Ordered compareKeys t) (q kl ku : K) (vl vu : V)
    (hl : (kl, vl) ∈ inorder t) (hu : (ku, vu) ∈ inorder t) (h1 : kl < q) (h2 : q < ku)
    (hadj : ∀ e ∈ inorder t, ¬ (kl < e.1 ∧ e.1 < ku)) :
    LookupTable1.lookup toDouble t q = vl + toDouble ((q - kl) / (ku - kl)) * (vu - vl) := by
  have e1 := lookup_lower_eq t ho (q, 0) (kl, vl) hl h1.le
    (fun a ha hlt => not_le.1 fun hle => hadj a ha ⟨hlt, lt_of_le_of_lt hle h2⟩)
  have e2 := lookup_upper_eq t ho (q, 0) (ku, vu) hu h2.le
    (fun a ha hlt => not_le.1 fun hle => hadj a ha ⟨lt_of_lt_of_le h1 hle, hlt⟩)
  simp only [LookupTable1.lookup, LookupTable1.interp, e1, e2, LookupTable1.interp_impl,
    if_neg (ne_of_gt h1), if_neg (ne_of_lt h2)]

theorem exTreeCIntWide_ordered : Ordered compareKeys exTreeCIntWide := by
  have c : compareKeys (CInt.ofInt (-2000000000), (30 : ℚ)) (CInt.ofInt 2000000000, 20) = -1 :=
    compareKeys_of_lt (by decide)
  simp [exTreeCIntWide, Ordered, inorder, c]

theorem exTreeCInt_ordered : Ordered compareKeys exTreeCInt := by
  have c1 : compareKeys (CInt.ofInt 0, (30 : ℚ)) (CInt.ofInt 10, 20) = -1 :=
    compareKeys_of_lt (by decide)
  have c2 : compareKeys (CInt.ofInt 0, (30 : ℚ)) (CInt.ofInt 20, 10) = -1 :=
    compareKeys_of_lt (by decide)
  have c3 : compareKeys (CInt.ofInt 10, (20 : ℚ)) (CInt.ofInt 20, 10) = -1 :=
    compareKeys_of_lt (by decide)
  simp [exTreeCInt, Ordered, inorder, c1, c2, c3]

/-- C19: interpolated results never overshoot the bracketing samples.  For a strictly ordered
1-D table (exact arithmetic) and a query `q` with `kl <= q <= ku` for adjacent stored keys
`kl < ku` with values `vl`, `vu`, `lookup(q)` lies between `min(vl, vu)` and `max(vl, vu)`. -/
theorem no_overshoot {F : Type} [LinearOrderedField F] (t : BinaryTreeNode (F × F))
    (ho : Ordered compareKeys t) (q kl ku vl vu : F)
    (hl : (kl, vl) ∈ inorder t) (hu : (ku, vu) ∈ inorder t) (hlt : kl < ku)
    (h1 : kl ≤ q) (h2 : q ≤ ku) (hadj : ∀ e ∈ inorder t, ¬ (kl < e.1 ∧ e.1 < ku)) :
    min vl vu ≤ LookupTable1.lookup id t q ∧ LookupTable1.lookup id t q ≤ max vl vu := by
  rcases eq_or_lt_of_le h1 with h | h
  · subst h
    rw [(lookup_sample id t ho kl vl hl).2.2]
    exact ⟨min_le_left _ _, le_max_left _ _⟩
  · rcases eq_or_lt_of_le h2 with h3 | h3
    · subst h3
      rw [(lookup_sample id t ho q vu hu).2.2]
      exact ⟨min_le_right _ _, le_max_right _ _⟩
    · have e1 := lookup_lower_eq t ho (q, 0) (kl, vl) hl h1
        (fun a ha hlt => not_le.1 fun hle => hadj a ha ⟨hlt, lt_of_le_of_lt hle h3⟩)
      have e2 := lookup_upper_eq t ho (q, 0) (ku, vu) hu h2
        (fun a ha hlt => not_le.1 fun hle => hadj a ha ⟨lt_of_lt_of_le h hle, hlt⟩)
      have hv : LookupTable1.lookup id t q = vl + ((q - kl) / (ku - kl)) * (vu - vl) := by
        simp only [LookupTable1.lookup, LookupTable1.interp, e1, e2, LookupTable1.interp_impl,
          if_neg (ne_of_gt h), if_neg (ne_of_lt h3), id]
      rw [hv]
      have hd : 0 < ku - kl := sub_pos.2 hlt
      have ht0 : 0 ≤ (q - kl) / (ku - kl) := div_nonneg (sub_nonneg.2 h1) hd.le
      have ht1 : (q - kl) / (ku - kl) ≤ 1 := by
        rw [div_le_one hd]
        linarith
      rcases le_total vl vu with hv1 | hv1
      · rw [min_eq_left hv1, max_eq_right hv1]
        constructor
        · nlinarith [mul_nonneg ht0 (sub_nonneg.2 hv1)]
        · nlinarith [mul_le_of_le_one_left (sub_nonneg.2 hv1) ht1]
      · rw [min_eq_right hv1, max_eq_left hv1]
        constructor
        · nlinarith [mul_le_of_le_one_left (sub_nonneg.2 hv1) ht1]
        · nlinarith [mul_nonneg ht0 (sub_nonneg.2 hv1)]

theorem no_overshoot_witness :
    min (30 : ℚ) 20 ≤ LookupTable1.lookup id exTreeQ (3 / 2) ∧
      LookupTable1.lookup id exTreeQ (3 / 2) ≤ max (30 : ℚ) 20 :=
  no_overshoot exTreeQ exTreeQ_ordered (3 / 2) 1 2 30 20 (by simp [exTreeQ_inorder])
    (by simp [exTreeQ_inorder]) (by norm_num) (by norm_num) (by norm_num)
    (by
      intro e he
      simp only [exTreeQ_inorder, List.mem_cons, List.mem_nil_iff, or_false] at he
      rcases he with rfl | rfl | rfl <;> norm_num)


/-- At a node whose left subtree has just been replaced by the result of an insertion, the
key test of `insert` and the balance test of `remove` agree, and so do the two rebalancing
steps. -/
theorem rebalance_agree_left (comp : α → α → Int) (x : α) (l1 r : BinaryTreeNode α) (d : α)
    (hl1 : HeightsOK l1) (hr : HeightsOK r) (hge : height r ≤ height l1 + 1)
    (hg : height r + 2 ≤ height l1 → Grow comp x l1) :
    (1 < getBalance (node (1 + max (getHeight l1) (getHeight r)) l1 r d) →
      ∃ e, getData l1 = some e ∧ (0 < comp x e ↔ getBalance l1 < 0)) ∧
    insertRebalance comp (node (1 + max (getHeight l1) (getHeight r)) l1 r d) x =
      removeRebalance (node (1 + max (getHeight l1) (getHeight r)) l1 r d) := by
  have el := getHeight_eq_height hl1
  have er := getHeight_eq_height hr
  by_cases hb : 1 < getBalance (node (1 + max (getHeight l1) (getHeight r)) l1 r d)
  · have hb2 := hb
    rw [getBalance_node, el, er] at hb2
    have hgrow := hg (by omega)
    cases l1 with
    | nil => exact absurd hgrow (by simp [Grow])
    | node h a b e =>
      obtain ⟨he, ha, hb3⟩ := hl1
      have ea := getHeight_eq_height ha
      have eb := getHeight_eq_height hb3
      have key : 0 < comp x e ↔ getBalance (node h a b e) < 0 := by
        rw [getBalance_node, ea, eb]
        simp only [height] at hb2
        rcases hgrow with ⟨rfl, rfl⟩ | ⟨c, hab⟩ | ⟨c, hab⟩
        · simp [height] at hb2
          omega
        · constructor <;> intro h0 <;> omega
        · constructor <;> intro h0 <;> omega
      refine ⟨fun _ => ⟨e, rfl, key⟩, ?_⟩
      unfold insertRebalance removeRebalance
      simp only [Option.bind_eq_bind, getLeft_node, getData_node, Option.some_bind, gt_iff_lt,
        key, hb, if_true]
  · refine ⟨fun h => absurd h hb, ?_⟩
    have hb2 := hb
    rw [getBalance_node, el, er] at hb2
    rw [insertRebalance_noop comp _ x (by omega) (by rw [getBalance_node, el, er]; omega),
      removeRebalance_noop _ (by omega) (by rw [getBalance_node, el, er]; omega)]

/-- The mirror image of `rebalance_agree_left`, for the right subtree. -/
theorem rebalance_agree_right (comp : α → α → Int) (x : α) (l r1 : BinaryTreeNode α) (d : α)
    (hl : HeightsOK l) (hr1 : HeightsOK r1) (hge : height l ≤ height r1 + 1)
    (hg : height l + 2 ≤ height r1 → Grow comp x r1) :
    (getBalance (node (1 + max (getHeight l) (getHeight r1)) l r1 d) < -1 →
      ∃ e, getData r1 = some e ∧ (comp x e < 0 ↔ 0 < getBalance r1)) ∧
    insertRebalance comp (node (1 + max (getHeight l) (getHeight r1)) l r1 d) x =
      removeRebalance (node (1 + max (getHeight l) (getHeight r1)) l r1 d) := by
  have el := getHeight_eq_height hl
  have er := getHeight_eq_height hr1
  by_cases hb : getBalance (node (1 + max (getHeight l) (getHeight r1)) l r1 d) < -1
  · have hb2 := hb
    rw [getBalance_node, el, er] at hb2
    have hgrow := hg (by omega)
    cases r1 with
    | nil => exact absurd hgrow (by simp [Grow])
    | node h a b e =>
      obtain ⟨he, ha, hb3⟩ := hr1
      have ea := getHeight_eq_height ha
      have eb := getHeight_eq_height hb3
      have key : comp x e < 0 ↔ 0 < getBalance (node h a b e) := by
        rw [getBalance_node, ea, eb]
        simp only [height] at hb2
        rcases hgrow with ⟨rfl, rfl⟩ | ⟨c, hab⟩ | ⟨c, hab⟩
        · simp [height] at hb2
          omega
        · constructor <;> intro h0 <;> omega
        · constructor <;> intro h0 <;> omega
      refine ⟨fun _ => ⟨e, rfl, key⟩, ?_⟩
      unfold insertRebalance removeRebalance
      have hnb : ¬ (1 < getBalance (node (1 + max (getHeight l) (getHeight (node h a b e))) l (node h a b e) d)) := by omega
      simp only [Option.bind_eq_bind, getRight_node, getData_node, Option.some_bind, gt_iff_lt,
        key, hnb, hb, if_false, if_true]
  · refine ⟨fun h => absurd h hb, ?_⟩
    have hb2 := hb
    rw [getBalance_node, el, er] at hb2
    rw [insertRebalance_noop comp _ x (by rw [getBalance_node, el, er]; omega) (by omega),
      removeRebalance_noop _ (by rw [getBalance_node, el, er]; omega) (by omega)]

/-- On an AVL tree with correct cached heights, `insert` and its variant with the balance test
of `remove` return the same result. -/
theorem insert_eq_insertByBalance (comp : α → α → Int) (x : α) :
    ∀ t : BinaryTreeNode α, HeightsOK t → IsBalanced t →
      AVL_Tree.insert comp t x = insertByBalance comp t x := by
  intro t
  induction t with
  | nil => exact fun _ _ => rfl
  | node h l r d ihl ihr =>
    intro hok bal
    obtain ⟨he, hl, hr⟩ := hok
    obtain ⟨blr, bl, br⟩ := bal
    rw [AVL_Tree.insert, insertByBalance, ← ihl hl bl, ← ihr hr br]
    obtain ⟨l1, e1, hl1, _, hgl⟩ := insert_avl comp x l hl bl
    obtain ⟨r1, e2, hr1, _, hgr⟩ := insert_avl comp x r hr br
    simp only [e1, e2, Option.bind_eq_bind, Option.some_bind, setLeft_node, setRight_node]
    rw [(rebalance_agree_left comp x l1 r d hl1 hr (by omega) (by
        intro h2
        rcases hgl with h0 | ⟨_, hg⟩
        · omega
        · exact hg)).2,
      (rebalance_agree_right comp x l r1 d hl hr1 (by omega) (by
        intro h2
        rcases hgr with h0 | ⟨_, hg⟩
        · omega
        · exact hg)).2]

/-- C20: the key-comparison rotation rule of `insert` agrees with the balance-factor rule of
`remove`.  In an AVL-balanced tree with correct cached heights, at every node: when the left
subtree is replaced by the result of inserting `x` and the balance factor exceeds 1, `x`
compares greater than the new left child's element exactly when that child's balance factor is
negative; symmetrically on the right with balance below -1, `x` compares less than the right
child's element exactly when that child's balance factor is positive.  Hence `insert` and the
variant that uses the child-balance test of `remove` return the same tree. -/
theorem insert_rule_agrees (comp : α → α → Int) (t : BinaryTreeNode α) (x : α)
    (hh : HeightsOK t) (hb : IsBalanced t) :
    (∀ (h : Nat) (l r : BinaryTreeNode α) (d : α), node h l r d ∈ nodes t →
      (∀ l1, AVL_Tree.insert comp l x = some l1 →
        1 < getBalance (node (1 + max (getHeight l1) (getHeight r)) l1 r d) →
        ∃ e, getData l1 = some e ∧ (0 < comp x e ↔ getBalance l1 < 0)) ∧
      (∀ r1, AVL_Tree.insert comp r x = some r1 →
        getBalance (node (1 + max (getHeight l) (getHeight r1)) l r1 d) < -1 →
        ∃ e, getData r1 = some e ∧ (comp x e < 0 ↔ 0 < getBalance r1))) ∧
    AVL_Tree.insert comp t x = insertByBalance comp t x ∧
    ∃ t1, AVL_Tree.insert comp t x = some t1 := by
  refine ⟨?_, insert_eq_insertByBalance comp x t hh hb, ?_⟩
  · intro h l r d hs
    obtain ⟨⟨_, hl, hr⟩, ⟨blr, bl, br⟩⟩ := avl_nodes hh hb _ hs
    constructor
    · intro l1 h1
      obtain ⟨l2, e1, hl1, _, hgl⟩ := insert_avl comp x l hl bl
      rw [h1] at e1
      cases e1
      exact (rebalance_agree_left comp x l1 r d hl1 hr (by omega) (by
        intro h2
        rcases hgl with h0 | ⟨_, hg⟩
        · omega
        · exact hg)).1
    · intro r1 h1
      obtain ⟨r2, e1, hr1, _, hgr⟩ := insert_avl comp x r hr br
      rw [h1] at e1
      cases e1
      exact (rebalance_agree_right comp x l r1 d hl hr1 (by omega) (by
        intro h2
        rcases hgr with h0 | ⟨_, hg⟩
        · omega
        · exact hg)).1
  · obtain ⟨t1, h1, _⟩ := insert_avl comp x t hh hb
    exact ⟨t1, h1⟩

/-- C20, on the left-left case of the test: inserting key 1 into the tree 3(2) rotates, and
both rules return the tree 2(1, 3). -/
theorem insert_rule_agrees_witness :
    insertByBalance compareKeys exTree2 (1, 30) = some exTree ∧
      AVL_Tree.insert compareKeys exTree2 (1, 30) = insertByBalance compareKeys exTree2 (1, 30) :=
  ⟨by decide, (insert_rule_agrees compareKeys exTree2 (1, 30) (by decide) (by decide)).2.1⟩

end LUT
